import Mathlib

/-!
# goproxy: the cached certificate signer (`cached_signer.go`)

A shallow embedding of `ExpiringCertMap` (a keyed store whose entries carry an
absolute expiry), of `cachedSigner.signHost` (canonical key, global generation
slot, cache lookup, external signing, cache fill) and of the interleaved
execution of several `signHost` calls.

Conventions of the embedding:

* `time.Time` is an instant on an unbounded integer line (nanoseconds) and
  `time.Duration` a signed number of nanoseconds; every call of `time.Now()`
  is an explicit argument of the operation that makes it.
* an `interface{}` value is `Option α`: `none` is the nil interface and
  `some x` an interface holding the dynamic value `x`.  The signer stores
  `*tls.Certificate` values, so there `α` is `CertPtr`; a nil pointer stored in
  an interface is `some none`, which is not the nil interface.
* a Go string is a Lean `String`; `<` on Go strings (bytewise) is the
  lexicographic order of the character lists, which agrees with the bytewise
  order of the UTF-8 encodings.
* the package-level `signHost(ca, hosts)` that does the signing is external to
  this file of the repository: it is an oracle `Signer`, whose answer may
  depend on how many times it was invoked before.
* `sync.Map` is a finite map, embedded as a function from keys to optional
  entries.
* a `[]string` argument is a reference to a backing array.  The sequential
  `signHost` returns the contents of the caller's slice along with its
  results; the interleaved model keeps the backing arrays in a shared memory.
-/

namespace goproxy

/-! ## Time -/

/-- Instants of `time.Time`. -/
abbrev Time := Int

/-- Values of `time.Duration`. -/
abbrev Duration := Int

/-- `t.Add(d)`. -/
def Time.Add (t : Time) (d : Duration) : Time := t + d

/-- `t.After(u)`: whether `t` is strictly after `u`. -/
def Time.After (t u : Time) : Bool := decide (u < t)

/-! ## Expiring keyed store -/

/-- `type expireEntry struct { ExpiresAt time.Time; Value interface{} }`. -/
structure expireEntry (α : Type) where
  ExpiresAt : Time
  Value : Option α
deriving DecidableEq

/-- `type ExpiringCertMap struct { TTL time.Duration; data sync.Map }`. -/
structure ExpiringCertMap (α : Type) where
  TTL : Duration
  data : String → Option (expireEntry α)

/-- `func (t *ExpiringCertMap) Store(key string, val interface{})`, executed
when `time.Now()` returns `now`. -/
def ExpiringCertMap.Store {α : Type} (t : ExpiringCertMap α) (now : Time) (key : String)
    (val : Option α) : ExpiringCertMap α :=
  { t with
    data := fun k =>
      if k = key then some { ExpiresAt := Time.Add now t.TTL, Value := val } else t.data k }

/-- `func (t *ExpiringCertMap) Load(key string) (val interface{})`, executed
when `time.Now()` returns `now`. -/
def ExpiringCertMap.Load {α : Type} (t : ExpiringCertMap α) (now : Time) (key : String) :
    Option α :=
  match t.data key with
  | none => none
  | some entry => if Time.After now entry.ExpiresAt then none else entry.Value

/-- One pass of the `m.data.Range(...)` callback of `newTTLMap` for the tick
value `now`: an entry is deleted when `v.(expireEntry).ExpiresAt.After(now)`. -/
def sweepPass {α : Type} (data : String → Option (expireEntry α)) (now : Time) :
    String → Option (expireEntry α) :=
  fun k =>
    match data k with
    | none => none
    | some v => if Time.After v.ExpiresAt now then none else some v

/-- What `newTTLMap` leaves behind: the value it returns to its caller, and
the variable `m` that the sweeping goroutine closes over.  The `return` copies
`m`, so the two are distinct stores with equal initial contents. -/
structure TTLMapAlloc (α : Type) where
  result : ExpiringCertMap α
  swept : ExpiringCertMap α

/-- `func newTTLMap(ttl time.Duration) (m ExpiringCertMap)`. -/
def newTTLMap {α : Type} (ttl : Duration) : TTLMapAlloc α :=
  let m : ExpiringCertMap α := { TTL := ttl, data := fun _ => none }
  { result := m, swept := m }

/-! ## Canonical key -/

/-- `sort.Strings(hosts)`: the slice in increasing order. -/
def sortStrings (hosts : List String) : List String :=
  hosts.insertionSort (fun a b => a.data ≤ b.data)

/-- `strings.Join(elems, sep)`. -/
def stringsJoin (elems : List String) (sep : String) : String :=
  sep.intercalate elems

/-- The `hostKey` computed by the first two statements of
`cachedSigner.signHost`. -/
def hostKey (hosts : List String) : String :=
  stringsJoin (sortStrings hosts) ";"

/-! ## The generation slot -/

/-- A buffered `chan struct{}`: its capacity and the number of buffered
elements. -/
structure Chan where
  cap : Nat
  len : Nat
deriving DecidableEq

/-- `make(chan struct{}, n)`. -/
def Chan.make (n : Nat) : Chan := { cap := n, len := 0 }

/-- `ch <- struct{}{}`: proceeds when the buffer has room, blocks (`none`)
otherwise. -/
def Chan.send (ch : Chan) : Option Chan :=
  if ch.len < ch.cap then some { ch with len := ch.len + 1 } else none

/-- `<-ch`: proceeds when the buffer is non-empty, blocks (`none`)
otherwise. -/
def Chan.recv (ch : Chan) : Option Chan :=
  if 0 < ch.len then some { ch with len := ch.len - 1 } else none

/-! ## Serialized signer -/

/-- Identity of a `tls.Certificate` instance. -/
abbrev Cert := Nat

/-- A `*tls.Certificate`: nil or the address of an instance. -/
abbrev CertPtr := Option Cert

/-- The authority credential `ca tls.Certificate`, opaque here. -/
abbrev CA := Nat

/-- A non-nil `error` value. -/
abbrev Err := String

/-- The external `signHost(ca, hosts) (*tls.Certificate, error)`.  The first
argument is the number of invocations made before this one. -/
abbrev Signer := Nat → CA → List String → CertPtr × Option Err

/-- `type cachedSigner struct { cache ExpiringCertMap; semaphore chan struct{} }`. -/
structure cachedSigner where
  cache : ExpiringCertMap CertPtr
  semaphore : Chan

/-- `func newCachedSigner(ttl time.Duration) cachedSigner`. -/
def newCachedSigner (ttl : Duration) : cachedSigner :=
  { cache := (newTTLMap ttl).result, semaphore := Chan.make 1 }

/-- Operations on shared state, in the order they happen. -/
inductive Event where
  | acquire
  | load (key : String)
  | sign (ca : CA) (hosts : List String)
  | store (key : String)
  | release
deriving DecidableEq

/-- Whether an event is an invocation of the external signer. -/
def Event.isSign : Event → Bool
  | .sign _ _ => true
  | _ => false

/-- Number of invocations of the external signer recorded in a log. -/
def invocations (log : List Event) : Nat := (log.filter Event.isSign).length

/-- The signer together with the history of operations performed on it. -/
structure Sys where
  s : cachedSigner
  log : List Event

/-- What a `signHost` call leaves behind when it returns. -/
structure Ret where
  cert : CertPtr
  err : Option Err
  hosts : List String
  sys : Sys

/-- The deferred `<-s.semaphore`, then the return to the caller. -/
def cachedSigner.unlock (σ : Sys) (cert : CertPtr) (err : Option Err) (hosts : List String) :
    Option Ret :=
  match σ.s.semaphore.recv with
  | none => none
  | some ch =>
    some { cert := cert, err := err, hosts := hosts,
           sys := { s := { σ.s with semaphore := ch }, log := σ.log ++ [Event.release] } }

/-- `func (s *cachedSigner) signHost(ca tls.Certificate, hosts []string)`,
run with no other call in flight.  `tLoad` and `tStore` are what `time.Now()`
returns inside `Load` and inside `Store`.  The result is `none` when the call
blocks on the semaphore. -/
def cachedSigner.signHost (sign : Signer) (σ : Sys) (ca : CA) (hosts : List String)
    (tLoad tStore : Time) : Option Ret :=
  let hosts := sortStrings hosts
  let hostKey := stringsJoin hosts ";"
  match σ.s.semaphore.send with
  | none => none
  | some ch =>
    let σ₁ : Sys := { s := { σ.s with semaphore := ch }, log := σ.log ++ [Event.acquire] }
    let σ₂ : Sys := { σ₁ with log := σ₁.log ++ [Event.load hostKey] }
    match σ₁.s.cache.Load tLoad hostKey with
    | some cachedCert => cachedSigner.unlock σ₂ cachedCert none hosts
    | none =>
      let (genCert, err) := sign (invocations σ₂.log) ca hosts
      let σ₃ : Sys := { σ₂ with log := σ₂.log ++ [Event.sign ca hosts] }
      match err with
      | some e => cachedSigner.unlock σ₃ none (some e) hosts
      | none =>
        let σ₄ : Sys :=
          { s := { σ₃.s with cache := σ₃.s.cache.Store tStore hostKey (some genCert) },
            log := σ₃.log ++ [Event.store hostKey] }
        cachedSigner.unlock σ₄ genCert none hosts

/-! ## Interleaved execution of several calls

A call receives its `hosts` slice by reference: the model keeps the backing
arrays of the callers' slices in a shared memory, and a call names its slice
by its index there, so that several calls can be given one and the same slice.
Two calls share the whole of a slice or nothing of it; slices that overlap in
part are not modelled.  An index without a slice is the nil slice.

`sort.Strings(hosts)` on line 71 runs before the send on line 74 and is not
atomic.  It is modelled by the insertion sort that the library runs on slices
of at most 12 elements, one comparison or one swap per step; on a slice that
no other call was passed these steps are not observable, and the sort leaves
the sorted permutation whatever algorithm runs.  Reading all elements of the
slice (`strings.Join`, the external signer taking its argument) is one step. -/

/-- `x[j], x[j+1] = x[j+1], x[j]`. -/
def swapAt (hosts : List String) (j : Nat) : List String :=
  (hosts.set j (hosts.getD (j + 1) "")).set (j + 1) (hosts.getD j "")

/-- Where a `signHost` call stands; `sl` names the slice it was passed.
`entry`: called, nothing executed yet.  `sortCmp`: inside `sort.Strings`,
outer index `i`, about to test `j > 0 && hosts[j] < hosts[j-1]`.  `sortSwap`:
inside `sort.Strings`, about to swap `hosts[j+1]` and `hosts[j]`.  `join`: at
`strings.Join(hosts, ";")`.  `awaitSlot`: at `s.semaphore <- struct{}{}`.
`lookup`: slot held, at `s.cache.Load(hostKey)`.  `generate`: cache miss, about
to call the external signer.  `signing`: inside the external signer, which
will return `(genCert, err)`.  `store`: signer succeeded, at `s.cache.Store`.
`unlock`: results set, at the deferred `<-s.semaphore`.  `returned`: back in
the caller. -/
inductive Pc where
  | entry (ca : CA) (sl : Nat)
  | sortCmp (ca : CA) (sl : Nat) (i j : Nat)
  | sortSwap (ca : CA) (sl : Nat) (i j : Nat)
  | join (ca : CA) (sl : Nat)
  | awaitSlot (ca : CA) (sl : Nat) (hostKey : String)
  | lookup (ca : CA) (sl : Nat) (hostKey : String)
  | generate (ca : CA) (sl : Nat) (hostKey : String)
  | signing (sl : Nat) (hostKey : String) (genCert : CertPtr) (err : Option Err)
  | store (sl : Nat) (hostKey : String) (genCert : CertPtr)
  | unlock (cert : CertPtr) (err : Option Err) (sl : Nat)
  | returned (cert : CertPtr) (err : Option Err) (sl : Nat)
deriving DecidableEq

/-- Whether the call is between its send on the semaphore and its deferred
receive. -/
def Pc.holdsSlot : Pc → Bool
  | .lookup _ _ _ => true
  | .generate _ _ _ => true
  | .signing _ _ _ _ => true
  | .store _ _ _ => true
  | .unlock _ _ _ => true
  | _ => false

/-- Whether the call is inside the external signer. -/
def Pc.inSigner : Pc → Bool
  | .signing _ _ _ _ => true
  | _ => false

/-- Whether the call has returned. -/
def Pc.isReturned : Pc → Bool
  | .returned _ _ _ => true
  | _ => false

/-- The slice the call was passed. -/
def Pc.slice : Pc → Nat
  | .entry _ sl => sl
  | .sortCmp _ sl _ _ => sl
  | .sortSwap _ sl _ _ => sl
  | .join _ sl => sl
  | .awaitSlot _ sl _ => sl
  | .lookup _ sl _ => sl
  | .generate _ sl _ => sl
  | .signing sl _ _ _ => sl
  | .store sl _ _ => sl
  | .unlock _ _ sl => sl
  | .returned _ _ sl => sl

/-- One atomic step of a call standing at `pc`, on the signer `σ` and the
memory `mem` of slices, with `now` the value of `time.Now()` should the step
read the clock.  `none`: the call cannot move (blocked on the channel, or
already returned). -/
def stepThread (sign : Signer) (σ : Sys) (mem : List (List String)) (now : Time) :
    Pc → Option (Sys × List (List String) × Pc)
  | .entry ca sl =>
    if 1 < (mem.getD sl []).length then some (σ, mem, .sortCmp ca sl 1 1)
    else some (σ, mem, .join ca sl)
  | .sortCmp ca sl i j =>
    let hosts := mem.getD sl []
    if 0 < j ∧ (hosts.getD j "").data < (hosts.getD (j - 1) "").data then
      some (σ, mem, .sortSwap ca sl i (j - 1))
    else if i + 1 < hosts.length then some (σ, mem, .sortCmp ca sl (i + 1) (i + 1))
    else some (σ, mem, .join ca sl)
  | .sortSwap ca sl i j =>
    some (σ, mem.set sl (swapAt (mem.getD sl []) j), .sortCmp ca sl i j)
  | .join ca sl => some (σ, mem, .awaitSlot ca sl (stringsJoin (mem.getD sl []) ";"))
  | .awaitSlot ca sl hostKey =>
    match σ.s.semaphore.send with
    | none => none
    | some ch =>
      some ({ s := { σ.s with semaphore := ch }, log := σ.log ++ [Event.acquire] }, mem,
            .lookup ca sl hostKey)
  | .lookup ca sl hostKey =>
    let σ₂ : Sys := { σ with log := σ.log ++ [Event.load hostKey] }
    match σ.s.cache.Load now hostKey with
    | some cachedCert => some (σ₂, mem, .unlock cachedCert none sl)
    | none => some (σ₂, mem, .generate ca sl hostKey)
  | .generate ca sl hostKey =>
    let hosts := mem.getD sl []
    let r := sign (invocations σ.log) ca hosts
    some ({ σ with log := σ.log ++ [Event.sign ca hosts] }, mem, .signing sl hostKey r.1 r.2)
  | .signing sl hostKey genCert err =>
    match err with
    | some e => some (σ, mem, .unlock none (some e) sl)
    | none => some (σ, mem, .store sl hostKey genCert)
  | .store sl hostKey genCert =>
    some ({ s := { σ.s with cache := σ.s.cache.Store now hostKey (some genCert) },
            log := σ.log ++ [Event.store hostKey] },
          mem, .unlock genCert none sl)
  | .unlock cert err sl =>
    match σ.s.semaphore.recv with
    | none => none
    | some ch =>
      some ({ s := { σ.s with semaphore := ch }, log := σ.log ++ [Event.release] }, mem,
            .returned cert err sl)
  | .returned _ _ _ => none

/-- The signer, the store `m` that the sweeping goroutine of `newTTLMap`
closes over, the backing arrays of the callers' slices, and the calls in
flight. -/
structure World where
  sys : Sys
  swept : ExpiringCertMap CertPtr
  slices : List (List String)
  threads : List Pc

/-- What the scheduler can do next: let call `i` take a step while the clock
reads `now`, or deliver a tick `now` to the sweeping goroutine. -/
inductive Action where
  | run (i : Nat) (now : Time)
  | tick (now : Time)
deriving DecidableEq

/-- The clock value an action carries. -/
def Action.time : Action → Time
  | .run _ now => now
  | .tick now => now

/-- One scheduler action; `none` when the chosen call does not exist or cannot
move. -/
def World.step (sign : Signer) (w : World) : Action → Option World
  | .run i now =>
    match w.threads[i]? with
    | none => none
    | some pc =>
      match stepThread sign w.sys w.slices now pc with
      | none => none
      | some (σ, mem, pc') =>
        some { w with sys := σ, slices := mem, threads := w.threads.set i pc' }
  | .tick now => some { w with swept := { w.swept with data := sweepPass w.swept.data now } }

/-- Run a schedule; an action that cannot be taken leaves the world as it
is. -/
def World.exec (sign : Signer) (w : World) : List Action → World
  | [] => w
  | a :: rest => World.exec sign ((w.step sign a).getD w) rest

/-- A world in which the calls `calls` have just been made on the signer `σ`,
each with a credential and the index of its slice in `slices`, none of them
having executed anything yet. -/
def World.launch (σ : Sys) (swept : ExpiringCertMap CertPtr) (slices : List (List String))
    (calls : List (CA × Nat)) : World :=
  { sys := σ, swept := swept, slices := slices,
    threads := calls.map (fun c => Pc.entry c.1 c.2) }

/-- The world right after `newCachedSigner(ttl)`, with one pending call per
element of `calls`. -/
def World.start (ttl : Duration) (slices : List (List String)) (calls : List (CA × Nat)) :
    World :=
  World.launch { s := newCachedSigner ttl, log := [] } (newTTLMap ttl).swept slices calls

/-- The calls that pass the slices `0, …, n - 1`, one call per slice, all with
the credential `ca`. -/
def ownSlices (ca : CA) (n : Nat) : List (CA × Nat) :=
  (List.range n).map (fun i => (ca, i))

/-- Number of calls that hold the generation slot. -/
def World.holders (w : World) : Nat := w.threads.countP Pc.holdsSlot

/-- The state of the slot: capacity one, and as many buffered elements as
there are calls between their send and their deferred receive. -/
def World.SlotInv (w : World) : Prop :=
  w.sys.s.semaphore.cap = 1 ∧ w.sys.s.semaphore.len ≤ 1 ∧
    w.sys.s.semaphore.len = w.holders

/-! ## Auxiliary definitions for the statements -/

/-- A write made with `Store`: the clock value it reads, its key and its
value. -/
structure Write (α : Type) where
  now : Time
  key : String
  val : Option α

/-- A sequence of `Store` calls, in order. -/
def storeAll {α : Type} (t : ExpiringCertMap α) : List (Write α) → ExpiringCertMap α
  | [] => t
  | w :: rest => storeAll (t.Store w.now w.key w.val) rest

/-- A signer that always succeeds; its `n`-th invocation (from 0) returns the
certificate instance `n`. -/
def freshSigner : Signer := fun n _ _ => (some n, none)

/-- A signer whose first invocation fails and whose later invocations
succeed. -/
def flakySigner : Signer := fun n _ _ =>
  if n = 0 then (none, some "x509: signing failed") else (some n, none)

/-- The state right after `newCachedSigner(2)`. -/
def sys₀ : Sys := { s := newCachedSigner 2, log := [] }

/-- The characters that `strings.Join(_, ";")` appends after the first
element: each further element preceded by the separator. -/
def sepData : List String → List Char
  | [] => []
  | a :: rest => ';' :: (a.data ++ sepData rest)

/-- Whether a hostname is free of the separator character. -/
def noSeparator (h : String) : Prop := ';' ∉ h.data

/-- A store with TTL 10 written twice: `dead` at time 5 (expires at 15) and
`live` at time 15 (expires at 25). -/
def sampleStore : ExpiringCertMap Nat :=
  (({ TTL := 10, data := fun _ => none } : ExpiringCertMap Nat).Store 5 "dead"
    (some 1)).Store 15 "live" (some 2)

/-- Whether an action is a tick of the sweeping goroutine. -/
def Action.isTick : Action → Bool
  | .tick _ => true
  | .run _ _ => false

/-! ## Several calls for one hostname set -/

/-- How far the one generation shared by calls for one hostname set has got:
`unsigned`, the external signer has not been invoked; `signing`, it has been
invoked and its result is not stored yet; `cached`, the result is stored. -/
inductive Phase where
  | unsigned
  | signing
  | cached
deriving DecidableEq

/-- Loop invariant of the insertion sort at the test of the inner loop: the
slice `s` is a permutation of `hosts`; its first `i + 1` elements, without the
one at `j`, are sorted; the elements between `j` and `i` are no smaller than
the one at `j`. -/
def SortCmpInv (hosts s : List String) (i j : Nat) : Prop :=
  s.Perm hosts ∧ j ≤ i ∧
    ∃ (A : List String) (x : String) (B R : List String),
      s = A ++ x :: (B ++ R) ∧ A.length = j ∧ B.length = i - j ∧
      (A ++ B).Sorted (fun a b => a.data ≤ b.data) ∧ ∀ b ∈ B, x.data ≤ b.data

/-- Loop invariant of the insertion sort at the swap of `s[j]` and
`s[j+1]`. -/
def SortSwapInv (hosts s : List String) (i j : Nat) : Prop :=
  s.Perm hosts ∧ j + 1 ≤ i ∧
    ∃ (A : List String) (y x : String) (B R : List String),
      s = A ++ y :: x :: (B ++ R) ∧ A.length = j ∧ B.length = i - (j + 1) ∧
      (A ++ y :: B).Sorted (fun a b => a.data ≤ b.data) ∧ (∀ b ∈ B, x.data ≤ b.data) ∧
      x.data < y.data

/-- The positions that call number `me`, made with `ca` on its own slice
(slice number `me`, contents `s`) holding a permutation of `hosts`, can be at
in a given phase, when the one invocation of the signer yields `c₀`. -/
def Pc.fits (ca : CA) (hosts : List String) (c₀ : CertPtr) (me : Nat) (s : List String) :
    Phase → Pc → Prop
  | _, .entry ca' sl => ca' = ca ∧ sl = me ∧ s.Perm hosts
  | _, .sortCmp ca' sl i j => ca' = ca ∧ sl = me ∧ SortCmpInv hosts s i j
  | _, .sortSwap ca' sl i j => ca' = ca ∧ sl = me ∧ SortSwapInv hosts s i j
  | _, .join ca' sl => ca' = ca ∧ sl = me ∧ s = sortStrings hosts
  | _, .awaitSlot ca' sl k =>
    ca' = ca ∧ sl = me ∧ s = sortStrings hosts ∧ k = hostKey hosts
  | .unsigned, .lookup ca' sl k =>
    ca' = ca ∧ sl = me ∧ s = sortStrings hosts ∧ k = hostKey hosts
  | .cached, .lookup ca' sl k =>
    ca' = ca ∧ sl = me ∧ s = sortStrings hosts ∧ k = hostKey hosts
  | .unsigned, .generate ca' sl k =>
    ca' = ca ∧ sl = me ∧ s = sortStrings hosts ∧ k = hostKey hosts
  | .signing, .signing sl k g e =>
    sl = me ∧ s = sortStrings hosts ∧ k = hostKey hosts ∧ g = c₀ ∧ e = none
  | .signing, .store sl k g => sl = me ∧ s = sortStrings hosts ∧ k = hostKey hosts ∧ g = c₀
  | .cached, .unlock c e sl => c = c₀ ∧ e = none ∧ sl = me ∧ s = sortStrings hosts
  | .cached, .returned c e sl => c = c₀ ∧ e = none ∧ sl = me ∧ s = sortStrings hosts
  | _, _ => False

/-- What the store and the log look like in a given phase: `n₀` invocations
were logged before the calls were made, and an entry stored under the key
expires no earlier than `t₀ + ttl`. -/
def Phase.state (n₀ : Nat) (ttl : Duration) (t₀ : Time) (hosts : List String) (c₀ : CertPtr)
    (σ : Sys) : Phase → Prop
  | .unsigned => σ.s.cache.data (hostKey hosts) = none ∧ invocations σ.log = n₀
  | .signing =>
    σ.s.cache.data (hostKey hosts) = none ∧ invocations σ.log = n₀ + 1 ∧
      σ.s.semaphore.len = 1
  | .cached =>
    (∃ e, σ.s.cache.data (hostKey hosts) = some { ExpiresAt := e, Value := some c₀ } ∧
      t₀ + ttl ≤ e) ∧ invocations σ.log = n₀ + 1

/-- Invariant of the interleaved execution of calls for one hostname set,
each on its own slice. -/
def World.SingleGen (n₀ : Nat) (ttl : Duration) (t₀ : Time) (ca : CA) (hosts : List String)
    (c₀ : CertPtr) (ph : Phase) (w : World) : Prop :=
  w.SlotInv ∧ w.sys.s.cache.TTL = ttl ∧
    (∀ (j : Nat) (pc : Pc), w.threads[j]? = some pc →
      pc.fits ca hosts c₀ j (w.slices.getD j []) ph) ∧
    ph.state n₀ ttl t₀ hosts c₀ w.sys

/-- No call holds the slot. -/
def World.quiet (w : World) : Prop :=
  ∀ (j : Nat) (q : Pc), w.threads[j]? = some q → q.holdsSlot = false

/-- Number of steps a call is away from having returned, at most, when its
slice has `n` elements. -/
def Pc.remaining (n : Nat) : Pc → Nat
  | .entry _ _ => n * (2 * n + 1) + 12
  | .sortCmp _ _ i j => 2 * j + 1 + (n - 1 - i) * (2 * n + 1) + 8
  | .sortSwap _ _ i j => 2 * j + 2 + (n - 1 - i) * (2 * n + 1) + 8
  | .join _ _ => 7
  | .awaitSlot _ _ _ => 6
  | .lookup _ _ _ => 5
  | .generate _ _ _ => 4
  | .signing _ _ _ _ => 3
  | .store _ _ _ => 2
  | .unlock _ _ _ => 1
  | .returned _ _ _ => 0

/-- The bound `Pc.remaining` of a call in a world. -/
def World.remaining (w : World) (pc : Pc) : Nat :=
  pc.remaining (w.slices.getD pc.slice []).length

/-- Schedule call `i` for `fuel` steps in a row, the clock reading `now`. -/
def finish (i : Nat) (now : Time) (fuel : Nat) : List Action :=
  List.replicate fuel (Action.run i now)

/-- Finish the calls `0, …, n - 1` one after the other. -/
def finishAll (now : Time) (fuel : Nat) : Nat → List Action
  | 0 => []
  | n + 1 => finishAll now fuel n ++ finish n now fuel

/-- A schedule without the ticks of the sweeping goroutine. -/
def withoutTicks (sched : List Action) : List Action :=
  sched.filter (fun a => !a.isTick)

/-- The state left by a call for `["a;b"]` made right after
`newCachedSigner(2)` with the clock at 0. -/
def sysAB : Sys :=
  { s := { cache := (newCachedSigner 2).cache.Store 0 "a;b" (some (some 0)),
           semaphore := Chan.make 1 },
    log := [Event.acquire, Event.load "a;b", Event.sign 7 ["a;b"], Event.store "a;b",
      Event.release] }

/-- An interleaving of two calls that were passed one slice: both run their
comparison before either swaps. -/
def raceSchedule : List Action :=
  [Action.run 0 0, Action.run 1 0, Action.run 1 0, Action.run 0 0, Action.run 0 0,
   Action.run 0 0, Action.run 0 0, Action.run 1 0, Action.run 1 0, Action.run 1 0,
   Action.run 0 0, Action.run 0 0, Action.run 0 0, Action.run 0 0, Action.run 0 0,
   Action.run 0 0, Action.run 1 0, Action.run 1 0, Action.run 1 0, Action.run 1 0,
   Action.run 1 0, Action.run 1 0]

end goproxy

/-! # Properties -/

namespace goproxy

/-! ## The store: basic facts -/

theorem Time.after_iff (t u : Time) : Time.After t u = true ↔ u < t := by
  simp [Time.After]

theorem Load_eq_some_iff {α : Type} (t : ExpiringCertMap α) (now : Time) (key : String) (v : α) :
    t.Load now key = some v ↔
      ∃ e, t.data key = some e ∧ Time.After now e.ExpiresAt = false ∧ e.Value = some v := by
  unfold ExpiringCertMap.Load
  cases h : t.data key with
  | none => simp
  | some e =>
    cases ha : Time.After now e.ExpiresAt <;> simp

theorem Load_Store_same {α : Type} (t : ExpiringCertMap α) (tS now : Time) (key : String)
    (val : Option α) :
    (t.Store tS key val).Load now key = if now ≤ tS + t.TTL then val else none := by
  simp only [ExpiringCertMap.Load, ExpiringCertMap.Store, if_true, Time.After, Time.Add]
  by_cases h : now ≤ tS + t.TTL
  · simp [h]
  · simp [h, not_le.mp h]

theorem Load_Store_other {α : Type} (t : ExpiringCertMap α) (tS now : Time) (key k : String)
    (val : Option α) (hk : k ≠ key) :
    (t.Store tS key val).Load now k = t.Load now k := by
  simp [ExpiringCertMap.Load, ExpiringCertMap.Store, hk]

theorem Load_none_mono {α : Type} (t : ExpiringCertMap α) (t₁ t₂ : Time) (key : String)
    (h12 : t₁ ≤ t₂) (h : t.Load t₁ key = none) : t.Load t₂ key = none := by
  unfold ExpiringCertMap.Load at h ⊢
  cases hd : t.data key with
  | none => simp
  | some e =>
    rw [hd] at h
    simp only [Time.After] at h ⊢
    by_cases h1 : e.ExpiresAt < t₁
    · have h2 : e.ExpiresAt < t₂ := lt_of_lt_of_le h1 h12
      simp [h2]
    · simp only [h1, decide_False, Bool.false_eq_true, if_false] at h
      simp [h]

/-! ## The generation slot: basic facts -/

theorem Chan.send_of_room (ch : Chan) (h : ch.len < ch.cap) :
    ch.send = some { cap := ch.cap, len := ch.len + 1 } := by
  simp [Chan.send, h]

theorem Chan.send_eq_none_iff (ch : Chan) : ch.send = none ↔ ¬ ch.len < ch.cap := by
  unfold Chan.send
  by_cases h : ch.len < ch.cap <;> simp [h]

theorem Chan.recv_succ (c n : Nat) :
    Chan.recv { cap := c, len := n + 1 } = some { cap := c, len := n } := by
  simp [Chan.recv]

/-! ## The sequential call: its three exits -/

theorem invocations_append (l₁ l₂ : List Event) :
    invocations (l₁ ++ l₂) = invocations l₁ + invocations l₂ := by
  simp [invocations]

/-- The call blocks exactly when the channel buffer is full. -/
theorem signHost_eq_none_iff (sign : Signer) (σ : Sys) (ca : CA) (hosts : List String)
    (tLoad tStore : Time) :
    cachedSigner.signHost sign σ ca hosts tLoad tStore = none ↔
      ¬ σ.s.semaphore.len < σ.s.semaphore.cap := by
  by_cases h : σ.s.semaphore.len < σ.s.semaphore.cap
  · simp only [h, not_true_eq_false, iff_false]
    simp only [cachedSigner.signHost, Chan.send_of_room _ h]
    cases hl : σ.s.cache.Load tLoad (stringsJoin (sortStrings hosts) ";") with
    | some c => simp [cachedSigner.unlock, Chan.recv_succ]
    | none =>
      simp only []
      rcases hs : sign (invocations
        ((σ.log ++ [Event.acquire]) ++ [Event.load (stringsJoin (sortStrings hosts) ";")])) ca
        (sortStrings hosts) with ⟨g, e⟩
      cases e <;> simp [cachedSigner.unlock, Chan.recv_succ]
  · simp only [h, not_false_eq_true, iff_true]
    simp [cachedSigner.signHost, (Chan.send_eq_none_iff _).mpr h]

/-- Exit 1, cache hit. -/
theorem signHost_hit (sign : Signer) (σ : Sys) (ca : CA) (hosts : List String)
    (tLoad tStore : Time) (c : CertPtr)
    (hfree : σ.s.semaphore.len < σ.s.semaphore.cap)
    (hload : σ.s.cache.Load tLoad (hostKey hosts) = some c) :
    cachedSigner.signHost sign σ ca hosts tLoad tStore =
      some { cert := c, err := none, hosts := sortStrings hosts,
             sys := { s := σ.s,
                      log := σ.log ++ [Event.acquire, Event.load (hostKey hosts),
                        Event.release] } } := by
  obtain ⟨⟨cache, ⟨cap, len⟩⟩, log⟩ := σ
  simp only [hostKey] at hload ⊢
  simp only at hfree
  have hs : Chan.send { cap := cap, len := len } = some { cap := cap, len := len + 1 } := by
    simp [Chan.send, hfree]
  simp [cachedSigner.signHost, hs, hload, cachedSigner.unlock, Chan.recv_succ]

/-- Exit 2, cache miss and signing failure. -/
theorem signHost_fail (sign : Signer) (σ : Sys) (ca : CA) (hosts : List String)
    (tLoad tStore : Time) (g : CertPtr) (e : Err)
    (hfree : σ.s.semaphore.len < σ.s.semaphore.cap)
    (hload : σ.s.cache.Load tLoad (hostKey hosts) = none)
    (hsign : sign (invocations σ.log) ca (sortStrings hosts) = (g, some e)) :
    cachedSigner.signHost sign σ ca hosts tLoad tStore =
      some { cert := none, err := some e, hosts := sortStrings hosts,
             sys := { s := σ.s,
                      log := σ.log ++ [Event.acquire, Event.load (hostKey hosts),
                        Event.sign ca (sortStrings hosts), Event.release] } } := by
  obtain ⟨⟨cache, ⟨cap, len⟩⟩, log⟩ := σ
  simp only [hostKey] at hload ⊢
  simp only at hfree hsign
  have hs : Chan.send { cap := cap, len := len } = some { cap := cap, len := len + 1 } := by
    simp [Chan.send, hfree]
  have hinv : invocations (log ++ [Event.acquire,
      Event.load (stringsJoin (sortStrings hosts) ";")]) = invocations log := by
    simp [invocations, Event.isSign]
  simp [cachedSigner.signHost, hs, hload, cachedSigner.unlock, Chan.recv_succ, hinv, hsign]

/-- Exit 3, cache miss and signing success. -/
theorem signHost_fresh (sign : Signer) (σ : Sys) (ca : CA) (hosts : List String)
    (tLoad tStore : Time) (g : CertPtr)
    (hfree : σ.s.semaphore.len < σ.s.semaphore.cap)
    (hload : σ.s.cache.Load tLoad (hostKey hosts) = none)
    (hsign : sign (invocations σ.log) ca (sortStrings hosts) = (g, none)) :
    cachedSigner.signHost sign σ ca hosts tLoad tStore =
      some { cert := g, err := none, hosts := sortStrings hosts,
             sys := { s := { σ.s with
                             cache := σ.s.cache.Store tStore (hostKey hosts) (some g) },
                      log := σ.log ++ [Event.acquire, Event.load (hostKey hosts),
                        Event.sign ca (sortStrings hosts), Event.store (hostKey hosts),
                        Event.release] } } := by
  obtain ⟨⟨cache, ⟨cap, len⟩⟩, log⟩ := σ
  simp only [hostKey] at hload ⊢
  simp only at hfree hsign
  have hs : Chan.send { cap := cap, len := len } = some { cap := cap, len := len + 1 } := by
    simp [Chan.send, hfree]
  have hinv : invocations (log ++ [Event.acquire,
      Event.load (stringsJoin (sortStrings hosts) ";")]) = invocations log := by
    simp [invocations, Event.isSign]
  simp [cachedSigner.signHost, hs, hload, cachedSigner.unlock, Chan.recv_succ, hinv, hsign]


/-! ## Canonical key: sorting -/

theorem sortStrings_perm (hosts : List String) : (sortStrings hosts).Perm hosts :=
  List.perm_insertionSort _ hosts

theorem sortStrings_sorted (hosts : List String) :
    (sortStrings hosts).Sorted (fun a b => a.data ≤ b.data) := by
  haveI : IsTotal String (fun a b => a.data ≤ b.data) := ⟨fun a b => le_total a.data b.data⟩
  haveI : IsTrans String (fun a b => a.data ≤ b.data) :=
    ⟨fun a b c hab hbc => le_trans hab hbc⟩
  exact List.sorted_insertionSort _ hosts

theorem sortStrings_eq_of_perm {h₁ h₂ : List String} (hp : h₁.Perm h₂) :
    sortStrings h₁ = sortStrings h₂ := by
  haveI : IsAntisymm String (fun a b => a.data ≤ b.data) :=
    ⟨fun a b hab hba => String.ext (le_antisymm hab hba)⟩
  exact List.eq_of_perm_of_sorted
    (((sortStrings_perm h₁).trans hp).trans (sortStrings_perm h₂).symm)
    (sortStrings_sorted h₁) (sortStrings_sorted h₂)

theorem sortStrings_idem (hosts : List String) :
    sortStrings (sortStrings hosts) = sortStrings hosts :=
  sortStrings_eq_of_perm (sortStrings_perm hosts)

theorem hostKey_eq_of_perm {h₁ h₂ : List String} (hp : h₁.Perm h₂) :
    hostKey h₁ = hostKey h₂ := by
  simp only [hostKey, sortStrings_eq_of_perm hp]


/-! ## Cache hit on repeat -/

/-- C1. Cache hit on repeat: from a state whose slot is free and whose store
has no visible entry for the canonical key of `hosts` at `t₁`, a `signHost`
call whose `Load` reads the clock at `t₁`, whose signer succeeds with `c` and
whose `Store` reads the clock at `tS₁ ≥ t₁` returns `(c, nil)`; a second call
for the same hosts (the list as first passed, or the caller's slice as the
first call left it) whose `Load` reads the clock at `t₂ ≤ t₁ + TTL` returns
`(c, nil)` as well, and over the two calls the external signer is invoked
exactly once. -/
theorem signHost_cache_hit_on_repeat (sign : Signer) (σ : Sys) (ca : CA)
    (hosts : List String) (t₁ tS₁ t₂ tS₂ : Time) (c : CertPtr)
    (hfree : σ.s.semaphore.len < σ.s.semaphore.cap)
    (hmiss : σ.s.cache.Load t₁ (hostKey hosts) = none)
    (hsign : sign (invocations σ.log) ca (sortStrings hosts) = (c, none))
    (hclock : t₁ ≤ tS₁) (hwithin : t₂ ≤ t₁ + σ.s.cache.TTL) :
    ∃ r₁ r₂ : Ret,
      cachedSigner.signHost sign σ ca hosts t₁ tS₁ = some r₁ ∧
      r₁.cert = c ∧ r₁.err = none ∧
      cachedSigner.signHost sign r₁.sys ca hosts t₂ tS₂ = some r₂ ∧
      cachedSigner.signHost sign r₁.sys ca r₁.hosts t₂ tS₂ = some r₂ ∧
      r₂.cert = c ∧ r₂.err = none ∧
      invocations r₁.sys.log = invocations σ.log + 1 ∧
      invocations r₂.sys.log = invocations σ.log + 1 := by
  have h₁ := signHost_fresh sign σ ca hosts t₁ tS₁ c hfree hmiss hsign
  have hk : hostKey (sortStrings hosts) = hostKey hosts :=
    hostKey_eq_of_perm (sortStrings_perm hosts)
  have hl : (σ.s.cache.Store tS₁ (hostKey hosts) (some c)).Load t₂ (hostKey hosts) = some c := by
    rw [Load_Store_same, if_pos (le_trans hwithin (add_le_add_right hclock _))]
  have h₂ := signHost_hit sign
    { s := { σ.s with cache := σ.s.cache.Store tS₁ (hostKey hosts) (some c) },
      log := σ.log ++ [Event.acquire, Event.load (hostKey hosts),
        Event.sign ca (sortStrings hosts), Event.store (hostKey hosts), Event.release] }
    ca hosts t₂ tS₂ c hfree hl
  have h₃ := signHost_hit sign
    { s := { σ.s with cache := σ.s.cache.Store tS₁ (hostKey hosts) (some c) },
      log := σ.log ++ [Event.acquire, Event.load (hostKey hosts),
        Event.sign ca (sortStrings hosts), Event.store (hostKey hosts), Event.release] }
    ca (sortStrings hosts) t₂ tS₂ c hfree (by rw [hk]; exact hl)
  rw [hk, sortStrings_idem] at h₃
  refine ⟨_, _, h₁, rfl, rfl, h₂, h₃, rfl, rfl, ?_, ?_⟩
  · simp [invocations, Event.isSign]
  · simp [invocations, Event.isSign]

/-- C1, at sample inputs: right after `newCachedSigner(2)`, two calls for
`["b.com", "a.com"]` at times 0 and 1. -/
theorem signHost_cache_hit_on_repeat_witness :
    ∃ r₁ r₂ : Ret,
      cachedSigner.signHost freshSigner sys₀ 7 ["b.com", "a.com"] 0 0 = some r₁ ∧
      r₁.cert = some 0 ∧ r₁.err = none ∧
      cachedSigner.signHost freshSigner r₁.sys 7 ["b.com", "a.com"] 1 1 = some r₂ ∧
      cachedSigner.signHost freshSigner r₁.sys 7 r₁.hosts 1 1 = some r₂ ∧
      r₂.cert = some 0 ∧ r₂.err = none ∧
      invocations r₁.sys.log = invocations sys₀.log + 1 ∧
      invocations r₂.sys.log = invocations sys₀.log + 1 :=
  signHost_cache_hit_on_repeat freshSigner sys₀ 7 ["b.com", "a.com"] 0 0 1 1 (some 0)
    (by decide) (by rfl) (by rfl) (by decide) (by decide)


/-! ## Canonicalization -/

/-- C2. Canonicalization is order-independent: for every hostname list and
every permutation of it, the key computed by `signHost` (sort, then join with
`;`) is the same string. -/
theorem hostKey_perm_invariant (hosts hosts' : List String) (hp : hosts'.Perm hosts) :
    hostKey hosts' = hostKey hosts :=
  hostKey_eq_of_perm hp

/-- C2, at sample inputs: the two orders of `a.com`, `b.com` both give the
key `a.com;b.com`. -/
theorem hostKey_perm_invariant_witness :
    hostKey ["b.com", "a.com"] = hostKey ["a.com", "b.com"] ∧
      hostKey ["a.com", "b.com"] = "a.com;b.com" :=
  ⟨hostKey_perm_invariant ["a.com", "b.com"] ["b.com", "a.com"]
      (List.Perm.swap "a.com" "b.com" []), by decide⟩

/-! ## Read-time visibility -/

/-- C3. Read-time visibility rule of `Load`: it returns a non-nil value `v`
exactly when the map holds an entry for the key, `now` is not after the
entry's `ExpiresAt`, and `v` is the entry's value; with an entry that `now` is
not after, it returns the stored value; with no entry, or with `now` strictly
after `ExpiresAt`, it returns nil. -/
theorem Load_visibility {α : Type} (t : ExpiringCertMap α) (now : Time) (key : String) :
    (∀ v : α, t.Load now key = some v ↔
      ∃ e, t.data key = some e ∧ now ≤ e.ExpiresAt ∧ e.Value = some v) ∧
    (∀ e, t.data key = some e → now ≤ e.ExpiresAt → t.Load now key = e.Value) ∧
    (t.data key = none → t.Load now key = none) ∧
    (∀ e, t.data key = some e → e.ExpiresAt < now → t.Load now key = none) := by
  refine ⟨fun v => ?_, fun e he hle => ?_, fun hn => ?_, fun e he hlt => ?_⟩
  · rw [Load_eq_some_iff]
    constructor
    · rintro ⟨e, he, ha, hv⟩
      refine ⟨e, he, ?_, hv⟩
      simpa [Time.After] using ha
    · rintro ⟨e, he, ha, hv⟩
      refine ⟨e, he, ?_, hv⟩
      simpa [Time.After] using ha
  · simp [ExpiringCertMap.Load, he, Time.After, not_lt.mpr hle]
  · simp [ExpiringCertMap.Load, hn]
  · simp [ExpiringCertMap.Load, he, Time.After, hlt]

/-- C3, at sample inputs: an entry expiring at 5 is returned at time 5 and
hidden at time 6. -/
theorem Load_visibility_witness :
    (({ TTL := 2, data := fun k => if k = "k" then some ⟨5, some 9⟩ else none } :
        ExpiringCertMap Nat).Load 5 "k" = some 9) ∧
    (({ TTL := 2, data := fun k => if k = "k" then some ⟨5, some 9⟩ else none } :
        ExpiringCertMap Nat).Load 6 "k" = none) :=
  ⟨(Load_visibility _ 5 "k").2.1 ⟨5, some 9⟩ (by decide) (by decide),
   (Load_visibility _ 6 "k").2.2.2 ⟨5, some 9⟩ (by decide) (by decide)⟩

/-! ## Store then Load -/

theorem storeAll_TTL {α : Type} (ws : List (Write α)) (t : ExpiringCertMap α) :
    (storeAll t ws).TTL = t.TTL := by
  induction ws generalizing t with
  | nil => rfl
  | cons w rest ih => simp [storeAll, ih, ExpiringCertMap.Store]

theorem storeAll_data_other {α : Type} (ws : List (Write α)) (t : ExpiringCertMap α)
    (k : String) (hk : ∀ w ∈ ws, w.key ≠ k) : (storeAll t ws).data k = t.data k := by
  induction ws generalizing t with
  | nil => rfl
  | cons w rest ih =>
    have hw : k ≠ w.key := fun h => hk w (List.mem_cons_self _ _) h.symm
    rw [storeAll, ih _ (fun w' hw' => hk w' (List.mem_cons_of_mem _ hw'))]
    simp [ExpiringCertMap.Store, hw]

/-- C4. Store/Load round trip bounded by the TTL: after `Store(k, v)` with a
non-nil `v` at time `tS`, followed by any writes to other keys, `Load(k)` at
time `t'` returns `v` exactly when `t' ≤ tS + TTL`, and returns nil once
`t' > tS + TTL`. -/
theorem Store_Load_roundtrip {α : Type} (t : ExpiringCertMap α) (k : String) (v : α)
    (tS t' : Time) (later : List (Write α)) (hlater : ∀ w ∈ later, w.key ≠ k) :
    ((storeAll (t.Store tS k (some v)) later).Load t' k = some v ↔ t' ≤ tS + t.TTL) ∧
    (tS + t.TTL < t' → (storeAll (t.Store tS k (some v)) later).Load t' k = none) := by
  have hd : (storeAll (t.Store tS k (some v)) later).data k =
      some { ExpiresAt := tS + t.TTL, Value := some v } := by
    rw [storeAll_data_other later _ k hlater]
    simp [ExpiringCertMap.Store, Time.Add]
  have hL : (storeAll (t.Store tS k (some v)) later).Load t' k =
      if t' ≤ tS + t.TTL then some v else none := by
    simp only [ExpiringCertMap.Load, hd, Time.After]
    by_cases h : t' ≤ tS + t.TTL
    · simp [h]
    · simp [h, not_le.mp h]
  constructor
  · rw [hL]
    by_cases h : t' ≤ tS + t.TTL <;> simp [h]
  · intro h
    rw [hL, if_neg (not_le.mpr h)]

/-- C4, at sample inputs: TTL 2, `Store("k", 9)` at time 10 and a later write
to another key; `Load("k")` returns 9 at time 12 and nil at time 13. -/
theorem Store_Load_roundtrip_witness :
    ((storeAll (({ TTL := 2, data := fun _ => none } : ExpiringCertMap Nat).Store 10 "k"
        (some 9)) [⟨11, "j", some 4⟩]).Load 12 "k" = some 9 ↔ (12 : Time) ≤ 10 + 2) ∧
    ((storeAll (({ TTL := 2, data := fun _ => none } : ExpiringCertMap Nat).Store 10 "k"
        (some 9)) [⟨11, "j", some 4⟩]).Load 13 "k" = none) :=
  ⟨(Store_Load_roundtrip { TTL := 2, data := fun _ => none } "k" 9 10 12 [⟨11, "j", some 4⟩]
      (by decide)).1,
   (Store_Load_roundtrip { TTL := 2, data := fun _ => none } "k" 9 10 13 [⟨11, "j", some 4⟩]
      (by decide)).2 (by decide)⟩


/-! ## Miss, then success or failure -/

/-- C5. Success postcondition of `signHost` on a miss: with the slot free,
`Load` of the canonical key returning nil at `tLoad` and the external signer
returning `(c, nil)`, the call returns `(c, nil)`; in the store afterwards the
canonical key is mapped to the entry `(ExpiresAt = tStore + TTL, Value = c)`,
where `tStore` is the clock read by `Store`, and the entry of every other key,
the TTL and the semaphore are as before. -/
theorem signHost_miss_success (sign : Signer) (σ : Sys) (ca : CA) (hosts : List String)
    (tLoad tStore : Time) (c : CertPtr)
    (hfree : σ.s.semaphore.len < σ.s.semaphore.cap)
    (hmiss : σ.s.cache.Load tLoad (hostKey hosts) = none)
    (hsign : sign (invocations σ.log) ca (sortStrings hosts) = (c, none)) :
    ∃ r : Ret,
      cachedSigner.signHost sign σ ca hosts tLoad tStore = some r ∧
      r.cert = c ∧ r.err = none ∧
      r.sys.s.cache.data (hostKey hosts) =
        some { ExpiresAt := tStore + σ.s.cache.TTL, Value := some c } ∧
      (∀ k, k ≠ hostKey hosts → r.sys.s.cache.data k = σ.s.cache.data k) ∧
      r.sys.s.cache.TTL = σ.s.cache.TTL ∧
      r.sys.s.semaphore = σ.s.semaphore := by
  refine ⟨_, signHost_fresh sign σ ca hosts tLoad tStore c hfree hmiss hsign,
    rfl, rfl, ?_, ?_, rfl, rfl⟩
  · simp [ExpiringCertMap.Store, Time.Add]
  · intro k hk
    simp [ExpiringCertMap.Store, hk]

/-- C5, at sample inputs: right after `newCachedSigner(2)`, a call for
`["b.com", "a.com"]` whose `Load` runs at 10 and whose `Store` runs at 11. -/
theorem signHost_miss_success_witness :
    ∃ r : Ret,
      cachedSigner.signHost freshSigner sys₀ 7 ["b.com", "a.com"] 10 11 = some r ∧
      r.cert = some 0 ∧ r.err = none ∧
      r.sys.s.cache.data (hostKey ["b.com", "a.com"]) =
        some { ExpiresAt := 11 + sys₀.s.cache.TTL, Value := some (some 0) } ∧
      (∀ k, k ≠ hostKey ["b.com", "a.com"] → r.sys.s.cache.data k = sys₀.s.cache.data k) ∧
      r.sys.s.cache.TTL = sys₀.s.cache.TTL ∧
      r.sys.s.semaphore = sys₀.s.semaphore :=
  signHost_miss_success freshSigner sys₀ 7 ["b.com", "a.com"] 10 11 (some 0)
    (by decide) (by rfl) (by rfl)

/-- C6. Signing failure is propagated verbatim and leaves the cache
unchanged: with the slot free, no visible entry for the canonical key at `t₁`
and the external signer returning the error `e`, the call returns a nil
certificate together with `e`, the signer state (store and semaphore) after
the call is the one before it, and a later call for the same hostname set, at
`t₂ ≥ t₁`, invokes the signer again and returns what that invocation
returns. -/
theorem signHost_failure_propagated (sign : Signer) (σ : Sys) (ca : CA)
    (hosts : List String) (t₁ tS₁ : Time) (g : CertPtr) (e : Err)
    (hfree : σ.s.semaphore.len < σ.s.semaphore.cap)
    (hmiss : σ.s.cache.Load t₁ (hostKey hosts) = none)
    (hsign : sign (invocations σ.log) ca (sortStrings hosts) = (g, some e)) :
    ∃ r : Ret,
      cachedSigner.signHost sign σ ca hosts t₁ tS₁ = some r ∧
      r.cert = none ∧ r.err = some e ∧
      r.sys.s = σ.s ∧
      invocations r.sys.log = invocations σ.log + 1 ∧
      ∀ (hosts₂ : List String) (t₂ tS₂ : Time), hosts₂.Perm hosts → t₁ ≤ t₂ →
        ∃ r₂ : Ret,
          cachedSigner.signHost sign r.sys ca hosts₂ t₂ tS₂ = some r₂ ∧
          invocations r₂.sys.log = invocations σ.log + 2 ∧
          r₂.err = (sign (invocations σ.log + 1) ca (sortStrings hosts)).2 ∧
          (r₂.err = none →
            r₂.cert = (sign (invocations σ.log + 1) ca (sortStrings hosts)).1 ∧
            r₂.sys.s.cache.data (hostKey hosts) =
              some { ExpiresAt := tS₂ + σ.s.cache.TTL, Value := some r₂.cert }) := by
  have hinv : invocations (σ.log ++ [Event.acquire, Event.load (hostKey hosts),
      Event.sign ca (sortStrings hosts), Event.release]) = invocations σ.log + 1 := by
    simp [invocations, Event.isSign]
  refine ⟨_, signHost_fail sign σ ca hosts t₁ tS₁ g e hfree hmiss hsign,
    rfl, rfl, rfl, hinv, ?_⟩
  intro hosts₂ t₂ tS₂ hp h12
  have hk : hostKey hosts₂ = hostKey hosts := hostKey_eq_of_perm hp
  have hs : sortStrings hosts₂ = sortStrings hosts := sortStrings_eq_of_perm hp
  have hmiss₂ : σ.s.cache.Load t₂ (hostKey hosts₂) = none := by
    rw [hk]; exact Load_none_mono _ t₁ t₂ _ h12 hmiss
  rcases hr : sign (invocations σ.log + 1) ca (sortStrings hosts) with ⟨g₂, e₂⟩
  cases e₂ with
  | some e' =>
    refine ⟨_, signHost_fail sign _ ca hosts₂ t₂ tS₂ g₂ e' hfree hmiss₂
      (by rw [hinv, hs]; exact hr), ?_, rfl, ?_⟩
    · simp [invocations, Event.isSign]
    · intro h; cases h
  | none =>
    refine ⟨_, signHost_fresh sign _ ca hosts₂ t₂ tS₂ g₂ hfree hmiss₂
      (by rw [hinv, hs]; exact hr), ?_, rfl, ?_⟩
    · simp [invocations, Event.isSign]
    · intro _
      refine ⟨rfl, ?_⟩
      simp [ExpiringCertMap.Store, Time.Add, hk]

/-- C6, at sample inputs: a signer that fails once; the first call returns
the error and leaves the state as it was, the second call signs again. -/
theorem signHost_failure_propagated_witness :
    ∃ r : Ret,
      cachedSigner.signHost flakySigner sys₀ 7 ["b.com", "a.com"] 0 0 = some r ∧
      r.cert = none ∧ r.err = some "x509: signing failed" ∧
      r.sys.s = sys₀.s ∧
      invocations r.sys.log = invocations sys₀.log + 1 ∧
      ∀ (hosts₂ : List String) (t₂ tS₂ : Time), hosts₂.Perm ["b.com", "a.com"] → 0 ≤ t₂ →
        ∃ r₂ : Ret,
          cachedSigner.signHost flakySigner r.sys 7 hosts₂ t₂ tS₂ = some r₂ ∧
          invocations r₂.sys.log = invocations sys₀.log + 2 ∧
          r₂.err = (flakySigner (invocations sys₀.log + 1) 7
            (sortStrings ["b.com", "a.com"])).2 ∧
          (r₂.err = none →
            r₂.cert = (flakySigner (invocations sys₀.log + 1) 7
              (sortStrings ["b.com", "a.com"])).1 ∧
            r₂.sys.s.cache.data (hostKey ["b.com", "a.com"]) =
              some { ExpiresAt := tS₂ + sys₀.s.cache.TTL, Value := some r₂.cert }) :=
  signHost_failure_propagated flakySigner sys₀ 7 ["b.com", "a.com"] 0 0 none
    "x509: signing failed" (by decide) (by rfl) (by rfl)


/-! ## Expired entries -/

/-- C7. Expired entries cause re-signing: after a `signHost` call that missed,
signed `c₁` and stored it with the clock at `tS₁`, a later call for the same
hostname set in any order whose `Load` reads the clock at `t₂ > tS₁ + TTL` is
a cache miss: it invokes the external signer again, returns the error that
invocation returns, and when that invocation succeeds with `c₂` it returns
`c₂` and overwrites the entry of the key with value `c₂` and expiry
`tS₂ + TTL`, where `tS₂` is the clock read by its `Store`. -/
theorem signHost_expired_resigns (sign : Signer) (σ : Sys) (ca : CA)
    (hosts hosts₂ : List String) (t₁ tS₁ t₂ tS₂ : Time) (c₁ : CertPtr)
    (hfree : σ.s.semaphore.len < σ.s.semaphore.cap)
    (hmiss : σ.s.cache.Load t₁ (hostKey hosts) = none)
    (hsign : sign (invocations σ.log) ca (sortStrings hosts) = (c₁, none))
    (hperm : hosts₂.Perm hosts)
    (hexpired : tS₁ + σ.s.cache.TTL < t₂) :
    ∃ r₁ r₂ : Ret,
      cachedSigner.signHost sign σ ca hosts t₁ tS₁ = some r₁ ∧
      r₁.cert = c₁ ∧ r₁.err = none ∧
      r₁.sys.s.cache.data (hostKey hosts) =
        some { ExpiresAt := tS₁ + σ.s.cache.TTL, Value := some c₁ } ∧
      invocations r₁.sys.log = invocations σ.log + 1 ∧
      r₁.sys.s.cache.Load t₂ (hostKey hosts₂) = none ∧
      cachedSigner.signHost sign r₁.sys ca hosts₂ t₂ tS₂ = some r₂ ∧
      invocations r₂.sys.log = invocations σ.log + 2 ∧
      r₂.err = (sign (invocations σ.log + 1) ca (sortStrings hosts)).2 ∧
      (∀ c₂, sign (invocations σ.log + 1) ca (sortStrings hosts) = (c₂, none) →
        r₂.cert = c₂ ∧ r₂.err = none ∧
        r₂.sys.s.cache.data (hostKey hosts) =
          some { ExpiresAt := tS₂ + σ.s.cache.TTL, Value := some c₂ }) := by
  have hinv : invocations (σ.log ++ [Event.acquire, Event.load (hostKey hosts),
      Event.sign ca (sortStrings hosts), Event.store (hostKey hosts), Event.release]) =
      invocations σ.log + 1 := by
    simp [invocations, Event.isSign]
  have hk : hostKey hosts₂ = hostKey hosts := hostKey_eq_of_perm hperm
  have hs : sortStrings hosts₂ = sortStrings hosts := sortStrings_eq_of_perm hperm
  have hmiss₂ : (σ.s.cache.Store tS₁ (hostKey hosts) (some c₁)).Load t₂ (hostKey hosts₂) =
      none := by
    rw [hk, Load_Store_same, if_neg (not_le.mpr hexpired)]
  have h₁ := signHost_fresh sign σ ca hosts t₁ tS₁ c₁ hfree hmiss hsign
  rcases hr : sign (invocations σ.log + 1) ca (sortStrings hosts) with ⟨g₂, e₂⟩
  cases e₂ with
  | some e' =>
    have h₂ := signHost_fail sign
      { s := { σ.s with cache := σ.s.cache.Store tS₁ (hostKey hosts) (some c₁) },
        log := σ.log ++ [Event.acquire, Event.load (hostKey hosts),
          Event.sign ca (sortStrings hosts), Event.store (hostKey hosts), Event.release] }
      ca hosts₂ t₂ tS₂ g₂ e' hfree hmiss₂ (by rw [hinv, hs]; exact hr)
    refine ⟨_, _, h₁, rfl, rfl, ?_, hinv, hmiss₂, h₂, ?_, rfl, ?_⟩
    · simp [ExpiringCertMap.Store, Time.Add]
    · simp [invocations, Event.isSign]
    · intro c₂ h; cases h
  | none =>
    have h₂ := signHost_fresh sign
      { s := { σ.s with cache := σ.s.cache.Store tS₁ (hostKey hosts) (some c₁) },
        log := σ.log ++ [Event.acquire, Event.load (hostKey hosts),
          Event.sign ca (sortStrings hosts), Event.store (hostKey hosts), Event.release] }
      ca hosts₂ t₂ tS₂ g₂ hfree hmiss₂ (by rw [hinv, hs]; exact hr)
    refine ⟨_, _, h₁, rfl, rfl, ?_, hinv, hmiss₂, h₂, ?_, rfl, ?_⟩
    · simp [ExpiringCertMap.Store, Time.Add]
    · simp [invocations, Event.isSign]
    · intro c₂ h
      cases h
      refine ⟨rfl, rfl, ?_⟩
      simp [ExpiringCertMap.Store, Time.Add, hk]

/-- C7, on the scenario of the specification: TTL 2, a first call with
`["a.com", "b.com"]` at time 0, then a call with `["b.com", "a.com"]` at time
3: the second call signs again and the signer has been invoked twice.  The
last conjunct is the immediate call in between, at time 0, which hits. -/
theorem signHost_expired_resigns_witness :
    (∃ r₁ r₂ : Ret,
      cachedSigner.signHost freshSigner sys₀ 7 ["a.com", "b.com"] 0 0 = some r₁ ∧
      r₁.cert = some 0 ∧ r₁.err = none ∧
      r₁.sys.s.cache.data (hostKey ["a.com", "b.com"]) =
        some { ExpiresAt := 0 + sys₀.s.cache.TTL, Value := some (some 0) } ∧
      invocations r₁.sys.log = invocations sys₀.log + 1 ∧
      r₁.sys.s.cache.Load 3 (hostKey ["b.com", "a.com"]) = none ∧
      cachedSigner.signHost freshSigner r₁.sys 7 ["b.com", "a.com"] 3 3 = some r₂ ∧
      invocations r₂.sys.log = invocations sys₀.log + 2 ∧
      r₂.err = (freshSigner (invocations sys₀.log + 1) 7 (sortStrings ["a.com", "b.com"])).2 ∧
      (∀ c₂, freshSigner (invocations sys₀.log + 1) 7 (sortStrings ["a.com", "b.com"]) =
          (c₂, none) →
        r₂.cert = c₂ ∧ r₂.err = none ∧
        r₂.sys.s.cache.data (hostKey ["a.com", "b.com"]) =
          some { ExpiresAt := 3 + sys₀.s.cache.TTL, Value := some c₂ })) ∧
    ((cachedSigner.signHost freshSigner sys₀ 7 ["a.com", "b.com"] 0 0).bind
      (fun r₁ => (cachedSigner.signHost freshSigner r₁.sys 7 ["b.com", "a.com"] 0 0).map
        (fun r₂ => (r₂.cert, r₂.err, invocations r₂.sys.log)))) = some (some 0, none, 1) :=
  ⟨signHost_expired_resigns freshSigner sys₀ 7 ["a.com", "b.com"] ["b.com", "a.com"]
      0 0 3 3 (some 0) (by decide) (by rfl) (by rfl)
      (List.Perm.swap "a.com" "b.com" []) (by decide),
   by decide⟩


/-! ## The slot is released on every exit -/

/-- C8. The generation slot never leaks: a `signHost` call completes exactly
when the channel has room at its send; a completed call leaves the semaphore
as it found it (occupancy after = occupancy before), and the operations it
performed are one of three sequences, one per exit (cache hit, signing
failure, signing success), each with exactly one acquire, at the start, and
exactly one release, at the end. -/
theorem signHost_slot_never_leaks (sign : Signer) (σ : Sys) (ca : CA) (hosts : List String)
    (tLoad tStore : Time) :
    ((cachedSigner.signHost sign σ ca hosts tLoad tStore).isSome ↔
      σ.s.semaphore.len < σ.s.semaphore.cap) ∧
    ∀ r : Ret, cachedSigner.signHost sign σ ca hosts tLoad tStore = some r →
      r.sys.s.semaphore = σ.s.semaphore ∧
      ∃ ops : List Event, r.sys.log = σ.log ++ ops ∧
        ops.count Event.acquire = 1 ∧ ops.count Event.release = 1 ∧
        (ops = [Event.acquire, Event.load (hostKey hosts), Event.release] ∨
         ops = [Event.acquire, Event.load (hostKey hosts),
                Event.sign ca (sortStrings hosts), Event.release] ∨
         ops = [Event.acquire, Event.load (hostKey hosts),
                Event.sign ca (sortStrings hosts), Event.store (hostKey hosts),
                Event.release]) := by
  constructor
  · rw [← not_iff_not, ← signHost_eq_none_iff sign σ ca hosts tLoad tStore]
    cases cachedSigner.signHost sign σ ca hosts tLoad tStore <;> simp
  · intro r hr
    have hfree : σ.s.semaphore.len < σ.s.semaphore.cap := by
      by_contra hn
      rw [(signHost_eq_none_iff sign σ ca hosts tLoad tStore).mpr hn] at hr
      cases hr
    cases hl : σ.s.cache.Load tLoad (hostKey hosts) with
    | some c =>
      rw [signHost_hit sign σ ca hosts tLoad tStore c hfree hl] at hr
      cases hr
      exact ⟨rfl, _, rfl, by simp [List.count_cons], by simp [List.count_cons],
        Or.inl rfl⟩
    | none =>
      rcases hs : sign (invocations σ.log) ca (sortStrings hosts) with ⟨g, e⟩
      cases e with
      | some e' =>
        rw [signHost_fail sign σ ca hosts tLoad tStore g e' hfree hl hs] at hr
        cases hr
        exact ⟨rfl, _, rfl, by simp [List.count_cons], by simp [List.count_cons],
          Or.inr (Or.inl rfl)⟩
      | none =>
        rw [signHost_fresh sign σ ca hosts tLoad tStore g hfree hl hs] at hr
        cases hr
        exact ⟨rfl, _, rfl, by simp [List.count_cons], by simp [List.count_cons],
          Or.inr (Or.inr rfl)⟩

/-- C8, at sample inputs: right after `newCachedSigner(2)` the call completes
and the semaphore is empty again. -/
theorem signHost_slot_never_leaks_witness :
    (cachedSigner.signHost freshSigner sys₀ 7 ["b.com", "a.com"] 0 0).isSome = true ∧
    (cachedSigner.signHost freshSigner sys₀ 7 ["b.com", "a.com"] 0 0).map
      (fun r => r.sys.s.semaphore) = some (Chan.make 1) :=
  ⟨(signHost_slot_never_leaks freshSigner sys₀ 7 ["b.com", "a.com"] 0 0).1.mpr (by decide),
   by decide⟩

/-! ## Interleavings: the slot invariant -/

theorem eq_of_countP_le_one {α : Type} (p : α → Bool) :
    ∀ (l : List α) (i j : Nat) (a b : α), l.countP p ≤ 1 → l[i]? = some a → l[j]? = some b →
      p a = true → p b = true → i = j := by
  intro l
  induction l with
  | nil => intro i j a b _ hi; simp at hi
  | cons x xs ih =>
    intro i j a b hc hi hj ha hb
    have hpos : ∀ (k : Nat) (c : α), xs[k]? = some c → p c = true → 0 < xs.countP p := by
      intro k c hk hc'
      exact List.countP_pos_iff.mpr ⟨c, List.getElem?_mem hk, hc'⟩
    cases i with
    | zero =>
      cases j with
      | zero => rfl
      | succ j' =>
        simp only [List.getElem?_cons_zero, Option.some.injEq] at hi
        simp only [List.getElem?_cons_succ] at hj
        subst hi
        have := hpos j' b hj hb
        simp only [List.countP_cons, ha, if_true] at hc
        omega
    | succ i' =>
      cases j with
      | zero =>
        simp only [List.getElem?_cons_zero, Option.some.injEq] at hj
        simp only [List.getElem?_cons_succ] at hi
        subst hj
        have := hpos i' a hi ha
        simp only [List.countP_cons, hb, if_true] at hc
        omega
      | succ j' =>
        simp only [List.getElem?_cons_succ] at hi hj
        have hc' : xs.countP p ≤ 1 := by
          have := List.countP_cons p x xs
          omega
        rw [ih i' j' a b hc' hi hj ha hb]
/-- Effect of one step of a call on the channel: the capacity is kept, and
the buffer grows or shrinks with the call's entering or leaving the section
between send and receive. -/
theorem stepThread_slot (sign : Signer) (σ σ' : Sys) (mem mem' : List (List String))
    (now : Time) (pc pc' : Pc)
    (h : stepThread sign σ mem now pc = some (σ', mem', pc')) :
    σ'.s.semaphore.cap = σ.s.semaphore.cap ∧
    σ'.s.semaphore.len + (if pc.holdsSlot = true then 1 else 0) =
      σ.s.semaphore.len + (if pc'.holdsSlot = true then 1 else 0) ∧
    (σ.s.semaphore.len ≤ σ.s.semaphore.cap → σ'.s.semaphore.len ≤ σ.s.semaphore.cap) := by
  cases pc with
  | entry ca sl =>
    simp only [stepThread] at h
    split at h <;>
    · simp only [Option.some.injEq, Prod.mk.injEq] at h
      obtain ⟨rfl, rfl, rfl⟩ := h
      simp [Pc.holdsSlot]
  | sortCmp ca sl i j =>
    simp only [stepThread] at h
    split at h
    · simp only [Option.some.injEq, Prod.mk.injEq] at h
      obtain ⟨rfl, rfl, rfl⟩ := h
      simp [Pc.holdsSlot]
    · split at h <;>
      · simp only [Option.some.injEq, Prod.mk.injEq] at h
        obtain ⟨rfl, rfl, rfl⟩ := h
        simp [Pc.holdsSlot]
  | sortSwap ca sl i j =>
    simp only [stepThread, Option.some.injEq, Prod.mk.injEq] at h
    obtain ⟨rfl, rfl, rfl⟩ := h
    simp [Pc.holdsSlot]
  | join ca sl =>
    simp only [stepThread, Option.some.injEq, Prod.mk.injEq] at h
    obtain ⟨rfl, rfl, rfl⟩ := h
    simp [Pc.holdsSlot]
  | awaitSlot ca sl k =>
    simp only [stepThread, Chan.send] at h
    by_cases hr : σ.s.semaphore.len < σ.s.semaphore.cap
    · simp only [hr, if_true, Option.some.injEq, Prod.mk.injEq] at h
      obtain ⟨rfl, rfl, rfl⟩ := h
      simp only [Pc.holdsSlot]
      refine ⟨trivial, by simp, fun _ => hr⟩
    · simp [hr] at h
  | lookup ca sl k =>
    simp only [stepThread] at h
    cases hl : σ.s.cache.Load now k with
    | none =>
      simp only [hl, Option.some.injEq, Prod.mk.injEq] at h
      obtain ⟨rfl, rfl, rfl⟩ := h
      simp [Pc.holdsSlot]
    | some c =>
      simp only [hl, Option.some.injEq, Prod.mk.injEq] at h
      obtain ⟨rfl, rfl, rfl⟩ := h
      simp [Pc.holdsSlot]
  | generate ca sl k =>
    simp only [stepThread, Option.some.injEq, Prod.mk.injEq] at h
    obtain ⟨rfl, rfl, rfl⟩ := h
    simp [Pc.holdsSlot]
  | signing sl k g e =>
    cases e with
    | none =>
      simp only [stepThread, Option.some.injEq, Prod.mk.injEq] at h
      obtain ⟨rfl, rfl, rfl⟩ := h
      simp [Pc.holdsSlot]
    | some e' =>
      simp only [stepThread, Option.some.injEq, Prod.mk.injEq] at h
      obtain ⟨rfl, rfl, rfl⟩ := h
      simp [Pc.holdsSlot]
  | store sl k g =>
    simp only [stepThread, Option.some.injEq, Prod.mk.injEq] at h
    obtain ⟨rfl, rfl, rfl⟩ := h
    simp [Pc.holdsSlot]
  | unlock c e sl =>
    simp only [stepThread, Chan.recv] at h
    by_cases hr : 0 < σ.s.semaphore.len
    · simp only [hr, if_true, Option.some.injEq, Prod.mk.injEq] at h
      obtain ⟨rfl, rfl, rfl⟩ := h
      simp only [Pc.holdsSlot]
      refine ⟨trivial, by simp; omega, fun hle => by simp; omega⟩
    · simp [hr] at h
  | returned c e sl => simp [stepThread] at h

/-- What a `run` action does when it is taken. -/
theorem World.step_run_eq (sign : Signer) (w w' : World) (i : Nat) (now : Time)
    (h : w.step sign (Action.run i now) = some w') :
    ∃ pc σ' mem' pc', w.threads[i]? = some pc ∧
      stepThread sign w.sys w.slices now pc = some (σ', mem', pc') ∧
      w' = { w with sys := σ', slices := mem', threads := w.threads.set i pc' } := by
  simp only [World.step] at h
  cases hp : w.threads[i]? with
  | none => simp [hp] at h
  | some pc =>
    simp only [hp] at h
    cases hs : stepThread sign w.sys w.slices now pc with
    | none => simp [hs] at h
    | some r =>
      obtain ⟨σ', mem', pc'⟩ := r
      simp only [hs, Option.some.injEq] at h
      exact ⟨pc, σ', mem', pc', rfl, hs, h.symm⟩

theorem holders_set (threads : List Pc) (i : Nat) (pc pc' : Pc)
    (hi : threads[i]? = some pc) :
    (threads.set i pc').countP Pc.holdsSlot + (if pc.holdsSlot = true then 1 else 0) =
      threads.countP Pc.holdsSlot + (if pc'.holdsSlot = true then 1 else 0) ∧
    (if pc.holdsSlot = true then 1 else 0) ≤ threads.countP Pc.holdsSlot := by
  obtain ⟨hlt, hget⟩ := List.getElem?_eq_some.mp hi
  have h1 := List.countP_set Pc.holdsSlot threads i pc' hlt
  have h2 : (if Pc.holdsSlot threads[i] = true then 1 else 0) ≤ threads.countP Pc.holdsSlot := by
    by_cases hp : Pc.holdsSlot threads[i] = true
    · simp only [hp, if_true]
      exact List.countP_pos_iff.mpr ⟨threads[i], List.getElem_mem _, hp⟩
    · simp [hp]
  rw [hget] at h1 h2
  exact ⟨by omega, h2⟩

theorem World.SlotInv_step (sign : Signer) (w w' : World) (a : Action)
    (hinv : w.SlotInv) (h : w.step sign a = some w') : w'.SlotInv := by
  cases a with
  | tick now =>
    simp only [World.step, Option.some.injEq] at h
    subst h
    exact hinv
  | run i now =>
    obtain ⟨pc, σ', mem', pc', hi, hs, rfl⟩ := World.step_run_eq sign w w' i now h
    obtain ⟨hcap, hle, hlen⟩ := hinv
    obtain ⟨h1, h2, h3⟩ := stepThread_slot sign w.sys σ' w.slices mem' now pc pc' hs
    obtain ⟨h4, h5⟩ := holders_set w.threads i pc pc' hi
    have h3' := h3 (by omega)
    simp only [World.holders] at hlen
    refine ⟨by simp only; omega, by simp only; omega, ?_⟩
    simp only [World.holders]
    omega

theorem World.SlotInv_exec (sign : Signer) (sched : List Action) (w : World)
    (hinv : w.SlotInv) : (w.exec sign sched).SlotInv := by
  induction sched generalizing w with
  | nil => exact hinv
  | cons a rest ih =>
    simp only [World.exec]
    apply ih
    cases hs : w.step sign a with
    | none => simpa using hinv
    | some w' => simpa using World.SlotInv_step sign w w' a hinv hs

theorem countP_map_entry (p : Pc → Bool) (hp : ∀ ca sl, p (Pc.entry ca sl) = false)
    (calls : List (CA × Nat)) :
    (calls.map (fun c => Pc.entry c.1 c.2)).countP p = 0 := by
  induction calls with
  | nil => rfl
  | cons c rest ih => simp [List.countP_cons, ih, hp]

theorem World.SlotInv_launch (σ : Sys) (swept : ExpiringCertMap CertPtr)
    (slices : List (List String)) (calls : List (CA × Nat))
    (hsem : σ.s.semaphore = Chan.make 1) :
    (World.launch σ swept slices calls).SlotInv := by
  refine ⟨?_, ?_, ?_⟩
  · simp [World.launch, hsem, Chan.make]
  · simp [World.launch, hsem, Chan.make]
  · simp only [World.launch, hsem, Chan.make, World.holders]
    rw [countP_map_entry _ (fun _ _ => rfl)]

/-! ## Global mutual exclusion -/

theorem inSigner_holdsSlot (pc : Pc) (h : pc.inSigner = true) : pc.holdsSlot = true := by
  cases pc <;> simp_all [Pc.inSigner, Pc.holdsSlot]

/-- C9. Global mutual exclusion of generation: in every state reached from
`newCachedSigner(ttl)` by any interleaving of any calls (equal or different
hostname sets, on slices of their own or on shared ones) and sweep ticks, the
channel of capacity one buffers as many elements as there are calls between
acquire and release, that number is at most one, no two distinct calls are
between acquire and release at once, and no two distinct calls are inside the
external signer at once. -/
theorem generation_mutually_exclusive (sign : Signer) (ttl : Duration)
    (slices : List (List String)) (calls : List (CA × Nat)) (sched : List Action) :
    ((World.start ttl slices calls).exec sign sched).sys.s.semaphore.cap = 1 ∧
    ((World.start ttl slices calls).exec sign sched).sys.s.semaphore.len =
      ((World.start ttl slices calls).exec sign sched).holders ∧
    ((World.start ttl slices calls).exec sign sched).holders ≤ 1 ∧
    (∀ (i j : Nat) (pi pj : Pc),
      ((World.start ttl slices calls).exec sign sched).threads[i]? = some pi →
      ((World.start ttl slices calls).exec sign sched).threads[j]? = some pj →
      pi.holdsSlot = true → pj.holdsSlot = true → i = j) ∧
    (∀ (i j : Nat) (pi pj : Pc),
      ((World.start ttl slices calls).exec sign sched).threads[i]? = some pi →
      ((World.start ttl slices calls).exec sign sched).threads[j]? = some pj →
      pi.inSigner = true → pj.inSigner = true → i = j) := by
  have hinv : ((World.start ttl slices calls).exec sign sched).SlotInv :=
    World.SlotInv_exec sign sched _ (World.SlotInv_launch _ _ slices calls rfl)
  obtain ⟨hcap, hle, hlen⟩ := hinv
  have hh : ((World.start ttl slices calls).exec sign sched).holders ≤ 1 := by omega
  refine ⟨hcap, hlen, hh, ?_, ?_⟩
  · intro i j pi pj hi hj hpi hpj
    exact eq_of_countP_le_one Pc.holdsSlot _ i j pi pj hh hi hj hpi hpj
  · intro i j pi pj hi hj hpi hpj
    exact eq_of_countP_le_one Pc.holdsSlot _ i j pi pj hh hi hj
      (inSigner_holdsSlot pi hpi) (inSigner_holdsSlot pj hpj)

set_option maxRecDepth 100000 in
/-- C9, at sample inputs: two calls for different hostname sets; once the
first is inside the external signer, the second stays blocked at its send no
matter how often it is scheduled. -/
theorem generation_mutually_exclusive_witness :
    (((World.start 2 [["a.com"], ["b.com"]] [(7, 0), (7, 1)]).exec freshSigner
        [Action.run 0 0, Action.run 1 0, Action.run 0 0, Action.run 1 0, Action.run 0 0,
         Action.run 0 0, Action.run 0 0, Action.run 1 0, Action.run 1 0]).threads =
      [Pc.signing 0 "a.com" (some 0) none, Pc.awaitSlot 7 1 "b.com"]) ∧
    ((World.start 2 [["a.com"], ["b.com"]] [(7, 0), (7, 1)]).exec freshSigner
        [Action.run 0 0, Action.run 1 0, Action.run 0 0, Action.run 1 0, Action.run 0 0,
         Action.run 0 0, Action.run 0 0, Action.run 1 0, Action.run 1 0]).holders ≤ 1 :=
  ⟨by decide,
   (generation_mutually_exclusive freshSigner 2 [["a.com"], ["b.com"]] [(7, 0), (7, 1)]
      [Action.run 0 0, Action.run 1 0, Action.run 0 0, Action.run 1 0, Action.run 0 0,
       Action.run 0 0, Action.run 0 0, Action.run 1 0, Action.run 1 0]).2.2.1⟩

/-! ## Interleavings: the in-place sort -/

theorem swapAt_length (s : List String) (j : Nat) : (swapAt s j).length = s.length := by
  simp [swapAt]

theorem swapAt_append (A : List String) (y x : String) (T : List String) :
    swapAt (A ++ y :: x :: T) A.length = A ++ x :: y :: T := by
  induction A with
  | nil => simp [swapAt]
  | cons a A ih =>
    have h := ih
    simp only [swapAt] at h ⊢
    simp only [List.cons_append, List.length_cons, List.getD_cons_succ, List.set_cons_succ,
      List.cons.injEq, true_and]
    exact h

theorem getD_append_length (A : List String) (x : String) (T : List String) :
    (A ++ x :: T).getD A.length "" = x := by
  induction A with
  | nil => rfl
  | cons a A ih => simpa using ih

theorem getD_set_self (mem : List (List String)) (sl : Nat) (f : List String → List String)
    (hf : f [] = []) : (mem.set sl (f (mem.getD sl []))).getD sl [] = f (mem.getD sl []) := by
  by_cases h : sl < mem.length
  · simp [List.getD_eq_getElem?_getD, List.getElem?_set, h]
  · have hge : mem.length ≤ sl := not_lt.mp h
    simp [List.getD_eq_getElem?_getD, List.getElem?_set, h, List.getElem?_eq_none hge, hf]

theorem getD_set_ne (mem : List (List String)) (sl j : Nat) (s : List String) (h : j ≠ sl) :
    (mem.set sl s).getD j [] = mem.getD j [] := by
  have h' : ¬ sl = j := fun e => h e.symm
  simp [List.getD_eq_getElem?_getD, List.getElem?_set, h']

theorem swapAt_nil (j : Nat) : swapAt [] j = [] := by
  simp [swapAt]

theorem sorted_insert_mid (A B : List String) (x : String)
    (hs : (A ++ B).Sorted (fun a b => a.data ≤ b.data))
    (hA : ∀ a ∈ A, a.data ≤ x.data) (hB : ∀ b ∈ B, x.data ≤ b.data) :
    (A ++ x :: B).Sorted (fun a b => a.data ≤ b.data) := by
  simp only [List.Sorted, List.pairwise_append, List.pairwise_cons] at hs ⊢
  obtain ⟨h1, h2, h3⟩ := hs
  refine ⟨h1, ⟨hB, h2⟩, ?_⟩
  intro a ha b hb
  rcases List.mem_cons.mp hb with rfl | hb
  · exact hA a ha
  · exact h3 a ha b hb

theorem sorted_snoc_le (A' B : List String) (y : String)
    (hs : ((A' ++ [y]) ++ B).Sorted (fun a b => a.data ≤ b.data)) :
    ∀ a ∈ A' ++ [y], a.data ≤ y.data := by
  simp only [List.Sorted, List.pairwise_append, List.pairwise_cons] at hs
  obtain ⟨⟨_, _, h3⟩, _, _⟩ := hs
  intro a ha
  rcases List.mem_append.mp ha with ha | ha
  · exact h3 a ha y (List.mem_singleton.mpr rfl)
  · rw [List.mem_singleton.mp ha]

theorem eq_sortStrings_of_sorted_perm (hosts s : List String) (hp : s.Perm hosts)
    (hs : s.Sorted (fun a b => a.data ≤ b.data)) : s = sortStrings hosts := by
  haveI : IsAntisymm String (fun a b => a.data ≤ b.data) :=
    ⟨fun a b hab hba => String.ext (le_antisymm hab hba)⟩
  exact List.eq_of_perm_of_sorted (hp.trans (sortStrings_perm hosts).symm) hs
    (sortStrings_sorted hosts)

/-- The test of the inner loop, when it fails: the first `i + 1` elements are
sorted. -/
theorem SortCmpInv_exit (hosts s : List String) (i j : Nat) (h : SortCmpInv hosts s i j)
    (hexit : ¬ (0 < j ∧ (s.getD j "").data < (s.getD (j - 1) "").data)) :
    ∃ P R, s = P ++ R ∧ P.length = i + 1 ∧ P.Sorted (fun a b => a.data ≤ b.data) := by
  obtain ⟨_, hji, A, x, B, R, rfl, hA, hB, hs, hxB⟩ := h
  refine ⟨A ++ x :: B, R, by simp, by simp [hA, hB]; omega, ?_⟩
  apply sorted_insert_mid A B x hs _ hxB
  rcases List.eq_nil_or_concat A with rfl | ⟨A', y, hAeq⟩
  · intro a ha; cases ha
  · rw [List.concat_eq_append] at hAeq
    subst hAeq
    have hlen : (A' ++ [y]).length = j := hA
    have hj : 0 < j := by rw [← hlen]; simp
    have hx : ((A' ++ [y]) ++ x :: (B ++ R)).getD j "" = x := by
      rw [← hlen]; exact getD_append_length _ _ _
    have hy : ((A' ++ [y]) ++ x :: (B ++ R)).getD (j - 1) "" = y := by
      have : j - 1 = A'.length := by rw [← hlen]; simp
      rw [this, List.append_assoc]
      exact getD_append_length A' y _
    rw [hx, hy] at hexit
    have hyx : y.data ≤ x.data := by
      by_contra hn
      exact hexit ⟨hj, not_le.mp hn⟩
    intro a ha
    exact le_trans (sorted_snoc_le A' B y hs a ha) hyx

/-- The test of the inner loop, when it succeeds. -/
theorem SortCmpInv_swap (hosts s : List String) (i j : Nat) (h : SortCmpInv hosts s i j)
    (hcmp : 0 < j ∧ (s.getD j "").data < (s.getD (j - 1) "").data) :
    SortSwapInv hosts s i (j - 1) := by
  obtain ⟨hp, hji, A, x, B, R, rfl, hA, hB, hs, hxB⟩ := h
  rcases List.eq_nil_or_concat A with rfl | ⟨A', y, hAeq⟩
  · simp at hA; omega
  · rw [List.concat_eq_append] at hAeq
    subst hAeq
    have hlen : (A' ++ [y]).length = j := hA
    have hx : ((A' ++ [y]) ++ x :: (B ++ R)).getD j "" = x := by
      rw [← hlen]; exact getD_append_length _ _ _
    have hj1 : j - 1 = A'.length := by rw [← hlen]; simp
    have hy : ((A' ++ [y]) ++ x :: (B ++ R)).getD (j - 1) "" = y := by
      rw [hj1, List.append_assoc]
      exact getD_append_length A' y _
    rw [hx, hy] at hcmp
    refine ⟨hp, by omega, A', y, x, B, R, by simp, hj1.symm, by rw [hB]; omega, ?_, hxB, hcmp.2⟩
    simpa using hs

/-- The swap. -/
theorem SortSwapInv_swap (hosts s : List String) (i j : Nat) (h : SortSwapInv hosts s i j) :
    SortCmpInv hosts (swapAt s j) i j := by
  obtain ⟨hp, hji, A, y, x, B, R, rfl, hA, hB, hs, hxB, hxy⟩ := h
  rw [← hA, swapAt_append]
  refine ⟨?_, by omega, A, x, y :: B, R, by simp, rfl, by simp [hB]; omega, hs, ?_⟩
  · exact (List.Perm.append_left A (List.Perm.swap y x _)).trans hp
  · intro b hb
    rcases List.mem_cons.mp hb with rfl | hb
    · exact le_of_lt hxy
    · exact hxB b hb

/-- Entering the next round of the outer loop. -/
theorem SortCmpInv_next (hosts s : List String) (i : Nat) (hp : s.Perm hosts)
    (P R : List String) (hs : s = P ++ R) (hlen : P.length = i + 1)
    (hsorted : P.Sorted (fun a b => a.data ≤ b.data)) (hlt : i + 1 < s.length) :
    SortCmpInv hosts s (i + 1) (i + 1) := by
  subst hs
  cases R with
  | nil => simp at hlt; omega
  | cons x R' =>
    exact ⟨hp, le_refl _, P, x, [], R', by simp, hlen, by simp, by simpa using hsorted,
      fun b hb => by cases hb⟩

/-- Leaving the outer loop. -/
theorem sorted_of_prefix (hosts s : List String) (i : Nat) (hp : s.Perm hosts)
    (P R : List String) (hs : s = P ++ R) (hlen : P.length = i + 1)
    (hsorted : P.Sorted (fun a b => a.data ≤ b.data)) (hge : ¬ i + 1 < s.length) :
    s = sortStrings hosts := by
  subst hs
  have hR : R = [] := by
    cases R with
    | nil => rfl
    | cons x R' => simp at hge; omega
  subst hR
  simp only [List.append_nil] at hp ⊢
  exact eq_sortStrings_of_sorted_perm hosts P hp hsorted

/-- A slice of at most one element is sorted. -/
theorem short_sorted (hosts s : List String) (hp : s.Perm hosts) (h : ¬ 1 < s.length) :
    s = sortStrings hosts := by
  apply eq_sortStrings_of_sorted_perm hosts s hp
  match s, h with
  | [], _ => exact List.sorted_nil
  | [a], _ => exact List.sorted_singleton a
  | a :: b :: t, h => simp at h

/-- Entering the first round of the outer loop. -/
theorem SortCmpInv_first (hosts s : List String) (hp : s.Perm hosts) (h : 1 < s.length) :
    SortCmpInv hosts s 1 1 := by
  match s, h with
  | a :: b :: t, _ =>
    exact ⟨hp, le_refl _, [a], b, [], t, rfl, rfl, rfl, by simp, fun x hx => by cases hx⟩

/-! ## Interleavings: calls for one hostname set -/

theorem fits_waiting (ca : CA) (hosts : List String) (c₀ : CertPtr) (me : Nat)
    (s : List String) (ph ph' : Phase) (q : Pc)
    (hf : q.fits ca hosts c₀ me s ph) (hh : q.holdsSlot = false) (hph : ph ≠ Phase.cached) :
    q.fits ca hosts c₀ me s ph' := by
  cases q <;> cases ph <;> cases ph' <;> simp_all [Pc.fits, Pc.holdsSlot]

theorem others_quiet (w : World) (hinv : w.SlotInv) (i : Nat) (pc : Pc)
    (hi : w.threads[i]? = some pc) (hh : pc.holdsSlot = true) (j : Nat) (q : Pc)
    (hj : w.threads[j]? = some q) (hne : j ≠ i) : q.holdsSlot = false := by
  obtain ⟨_, hle, hlen⟩ := hinv
  by_contra hq
  have hq' : q.holdsSlot = true := by simpa using hq
  exact hne (eq_of_countP_le_one Pc.holdsSlot w.threads j i q pc
    (by simp only [World.holders] at hlen; omega) hj hi hq' hh)

theorem SingleGen_intro (n₀ : Nat) (ttl : Duration) (t₀ : Time) (ca : CA) (hosts : List String)
    (c₀ : CertPtr) (w : World) (i : Nat) (pc' : Pc) (σ' : Sys) (mem' : List (List String))
    (ph' : Phase)
    (hslot : ({ w with sys := σ', slices := mem', threads := w.threads.set i pc' } :
      World).SlotInv)
    (httl : σ'.s.cache.TTL = ttl)
    (hothers : ∀ (j : Nat) (q : Pc), w.threads[j]? = some q → j ≠ i →
      q.fits ca hosts c₀ j (mem'.getD j []) ph')
    (hpc : pc'.fits ca hosts c₀ i (mem'.getD i []) ph')
    (hstate : ph'.state n₀ ttl t₀ hosts c₀ σ') :
    ({ w with sys := σ', slices := mem', threads := w.threads.set i pc' } : World).SingleGen
      n₀ ttl t₀ ca hosts c₀ ph' := by
  refine ⟨hslot, httl, ?_, hstate⟩
  intro j q hj
  simp only [List.getElem?_set] at hj
  by_cases hij : i = j
  · simp only [hij, if_true] at hj
    by_cases hlt : j < w.threads.length
    · simp only [hlt, if_true, Option.some.injEq] at hj
      rw [← hj, ← hij]; exact hpc
    · simp [hlt] at hj
  · simp only [hij, if_false] at hj
    exact hothers j q hj (fun h => hij h.symm)

theorem World.SingleGen_step (sign : Signer) (n₀ : Nat) (ttl : Duration) (t₀ : Time) (ca : CA)
    (hosts : List String) (c₀ : CertPtr) (ph : Phase) (w w' : World) (a : Action)
    (hsign : sign n₀ ca (sortStrings hosts) = (c₀, none))
    (hwin : t₀ ≤ a.time ∧ a.time ≤ t₀ + ttl)
    (hinv : w.SingleGen n₀ ttl t₀ ca hosts c₀ ph)
    (hstep : w.step sign a = some w') :
    ∃ ph', w'.SingleGen n₀ ttl t₀ ca hosts c₀ ph' := by
  cases a with
  | tick now =>
    simp only [World.step, Option.some.injEq] at hstep
    subst hstep
    exact ⟨ph, hinv⟩
  | run i now =>
    have hslot' := World.SlotInv_step sign w w' _ hinv.1 hstep
    obtain ⟨pc, σ', mem', pc', hi, hs, rfl⟩ := World.step_run_eq sign w w' i now hstep
    obtain ⟨hslot, httl, hfits, hstate⟩ := hinv
    have hfit := hfits i pc hi
    simp only [Action.time] at hwin
    have hkeep : ∀ (j : Nat) (q : Pc), w.threads[j]? = some q → j ≠ i →
        q.fits ca hosts c₀ j (w.slices.getD j []) ph := fun j q hj _ => hfits j q hj
    have hmove : pc.holdsSlot = true → ph ≠ Phase.cached → ∀ (ph' : Phase) (j : Nat) (q : Pc),
        w.threads[j]? = some q → j ≠ i → q.fits ca hosts c₀ j (w.slices.getD j []) ph' :=
      fun hh hph ph' j q hj hne =>
        fits_waiting ca hosts c₀ j _ ph ph' q (hfits j q hj)
          (others_quiet w hslot i pc hi hh j q hj hne) hph
    cases pc with
    | entry ca' sl =>
      have hf : ca' = ca ∧ sl = i ∧ (w.slices.getD i []).Perm hosts := by
        cases ph <;> simpa [Pc.fits] using hfit
      obtain ⟨rfl, rfl, hp⟩ := hf
      simp only [stepThread] at hs
      split at hs
      · rename_i hlen
        simp only [Option.some.injEq, Prod.mk.injEq] at hs
        obtain ⟨rfl, rfl, rfl⟩ := hs
        refine ⟨ph, SingleGen_intro n₀ ttl t₀ ca' hosts c₀ w sl _ _ _ ph hslot' httl hkeep ?_
          hstate⟩
        have := SortCmpInv_first hosts _ hp hlen
        cases ph <;> exact ⟨rfl, rfl, this⟩
      · rename_i hlen
        simp only [Option.some.injEq, Prod.mk.injEq] at hs
        obtain ⟨rfl, rfl, rfl⟩ := hs
        refine ⟨ph, SingleGen_intro n₀ ttl t₀ ca' hosts c₀ w sl _ _ _ ph hslot' httl hkeep ?_
          hstate⟩
        have := short_sorted hosts _ hp hlen
        cases ph <;> exact ⟨rfl, rfl, this⟩
    | sortCmp ca' sl i' j' =>
      have hf : ca' = ca ∧ sl = i ∧ SortCmpInv hosts (w.slices.getD i []) i' j' := by
        cases ph <;> simpa [Pc.fits] using hfit
      obtain ⟨rfl, rfl, hsi⟩ := hf
      simp only [stepThread] at hs
      split at hs
      · rename_i hcmp
        simp only [Option.some.injEq, Prod.mk.injEq] at hs
        obtain ⟨rfl, rfl, rfl⟩ := hs
        refine ⟨ph, SingleGen_intro n₀ ttl t₀ ca' hosts c₀ w sl _ _ _ ph hslot' httl hkeep ?_
          hstate⟩
        have := SortCmpInv_swap hosts _ i' j' hsi hcmp
        cases ph <;> exact ⟨rfl, rfl, this⟩
      · rename_i hcmp
        obtain ⟨P, R, hPR, hlenP, hsorted⟩ := SortCmpInv_exit hosts _ i' j' hsi hcmp
        split at hs
        · rename_i hlt
          simp only [Option.some.injEq, Prod.mk.injEq] at hs
          obtain ⟨rfl, rfl, rfl⟩ := hs
          refine ⟨ph, SingleGen_intro n₀ ttl t₀ ca' hosts c₀ w sl _ _ _ ph hslot' httl hkeep ?_
            hstate⟩
          have := SortCmpInv_next hosts _ i' hsi.1 P R hPR hlenP hsorted hlt
          cases ph <;> exact ⟨rfl, rfl, this⟩
        · rename_i hlt
          simp only [Option.some.injEq, Prod.mk.injEq] at hs
          obtain ⟨rfl, rfl, rfl⟩ := hs
          refine ⟨ph, SingleGen_intro n₀ ttl t₀ ca' hosts c₀ w sl _ _ _ ph hslot' httl hkeep ?_
            hstate⟩
          have := sorted_of_prefix hosts _ i' hsi.1 P R hPR hlenP hsorted hlt
          cases ph <;> exact ⟨rfl, rfl, this⟩
    | sortSwap ca' sl i' j' =>
      have hf : ca' = ca ∧ sl = i ∧ SortSwapInv hosts (w.slices.getD i []) i' j' := by
        cases ph <;> simpa [Pc.fits] using hfit
      obtain ⟨rfl, rfl, hsi⟩ := hf
      simp only [stepThread, Option.some.injEq, Prod.mk.injEq] at hs
      obtain ⟨rfl, rfl, rfl⟩ := hs
      refine ⟨ph, SingleGen_intro n₀ ttl t₀ ca' hosts c₀ w sl _ _ _ ph hslot' httl ?_ ?_
        hstate⟩
      · intro j q hj hne
        rw [getD_set_ne _ _ _ _ hne]
        exact hfits j q hj
      · have := SortSwapInv_swap hosts _ i' j' hsi
        rw [getD_set_self w.slices sl (fun s => swapAt s j') (swapAt_nil j')]
        cases ph <;> exact ⟨rfl, rfl, this⟩
    | join ca' sl =>
      have hf : ca' = ca ∧ sl = i ∧ w.slices.getD i [] = sortStrings hosts := by
        cases ph <;> simpa [Pc.fits] using hfit
      obtain ⟨rfl, rfl, hsl⟩ := hf
      simp only [stepThread, Option.some.injEq, Prod.mk.injEq] at hs
      obtain ⟨rfl, rfl, rfl⟩ := hs
      refine ⟨ph, SingleGen_intro n₀ ttl t₀ ca' hosts c₀ w sl _ _ _ ph hslot' httl hkeep ?_
        hstate⟩
      cases ph <;> exact ⟨rfl, rfl, hsl, by rw [hsl]; rfl⟩
    | awaitSlot ca' sl k =>
      have hf : ca' = ca ∧ sl = i ∧ w.slices.getD i [] = sortStrings hosts ∧
          k = hostKey hosts := by
        cases ph <;> simpa [Pc.fits] using hfit
      simp only [stepThread, Chan.send] at hs
      by_cases hr : w.sys.s.semaphore.len < w.sys.s.semaphore.cap
      · simp only [hr, if_true, Option.some.injEq, Prod.mk.injEq] at hs
        obtain ⟨rfl, rfl, rfl⟩ := hs
        cases ph with
        | unsigned =>
          refine ⟨Phase.unsigned, SingleGen_intro n₀ ttl t₀ ca hosts c₀ w i _ _ _ _ hslot' httl
            hkeep (by simpa [Pc.fits] using hf) ?_⟩
          simpa [Phase.state, invocations, Event.isSign] using hstate
        | signing =>
          exfalso
          have := hstate.2.2
          have := hslot.1
          omega
        | cached =>
          refine ⟨Phase.cached, SingleGen_intro n₀ ttl t₀ ca hosts c₀ w i _ _ _ _ hslot' httl
            hkeep (by simpa [Pc.fits] using hf) ?_⟩
          simpa [Phase.state, invocations, Event.isSign] using hstate
      · simp [hr] at hs
    | lookup ca' sl k =>
      cases ph with
      | signing => simp [Pc.fits] at hfit
      | unsigned =>
        have hf : ca' = ca ∧ sl = i ∧ w.slices.getD i [] = sortStrings hosts ∧
            k = hostKey hosts := by
          simpa [Pc.fits] using hfit
        obtain ⟨rfl, rfl, hsl, rfl⟩ := hf
        have hl : w.sys.s.cache.Load now (hostKey hosts) = none := by
          simp [ExpiringCertMap.Load, hstate.1]
        simp only [stepThread, hl, Option.some.injEq, Prod.mk.injEq] at hs
        obtain ⟨rfl, rfl, rfl⟩ := hs
        refine ⟨Phase.unsigned, SingleGen_intro n₀ ttl t₀ ca' hosts c₀ w sl _ _ _ _ hslot' httl
          hkeep ⟨rfl, rfl, hsl, rfl⟩ ?_⟩
        simpa [Phase.state, invocations, Event.isSign] using hstate
      | cached =>
        have hf : ca' = ca ∧ sl = i ∧ w.slices.getD i [] = sortStrings hosts ∧
            k = hostKey hosts := by
          simpa [Pc.fits] using hfit
        obtain ⟨rfl, rfl, hsl, rfl⟩ := hf
        obtain ⟨⟨e, he, hle⟩, hn⟩ := hstate
        have hl : w.sys.s.cache.Load now (hostKey hosts) = some c₀ := by
          have : ¬ e < now := not_lt.mpr (le_trans hwin.2 hle)
          simp [ExpiringCertMap.Load, he, Time.After, this]
        simp only [stepThread, hl, Option.some.injEq, Prod.mk.injEq] at hs
        obtain ⟨rfl, rfl, rfl⟩ := hs
        refine ⟨Phase.cached, SingleGen_intro n₀ ttl t₀ ca' hosts c₀ w sl _ _ _ _ hslot' httl
          hkeep ⟨rfl, rfl, rfl, hsl⟩ ?_⟩
        exact ⟨⟨e, he, hle⟩, by simpa [invocations, Event.isSign] using hn⟩
    | generate ca' sl k =>
      cases ph with
      | signing => simp [Pc.fits] at hfit
      | cached => simp [Pc.fits] at hfit
      | unsigned =>
        have hf : ca' = ca ∧ sl = i ∧ w.slices.getD i [] = sortStrings hosts ∧
            k = hostKey hosts := by
          simpa [Pc.fits] using hfit
        obtain ⟨rfl, rfl, hsl, rfl⟩ := hf
        simp only [stepThread, Option.some.injEq, Prod.mk.injEq] at hs
        obtain ⟨rfl, rfl, rfl⟩ := hs
        rw [hsl, hstate.2, hsign] at hslot' ⊢
        refine ⟨Phase.signing, SingleGen_intro n₀ ttl t₀ ca' hosts c₀ w sl _ _ _ _ hslot' httl
          (hmove rfl (by decide) Phase.signing) ⟨rfl, hsl, rfl, rfl, rfl⟩ ?_⟩
        refine ⟨hstate.1, ?_, ?_⟩
        · show invocations (w.sys.log ++ [Event.sign ca' (sortStrings hosts)]) = n₀ + 1
          rw [invocations_append, hstate.2]
          rfl
        have h1 := (holders_set w.threads sl (Pc.generate ca' sl (hostKey hosts))
          (Pc.generate ca' sl (hostKey hosts)) hi).2
        have h2 := hslot.2.1
        have h3 := hslot.2.2
        simp only [World.holders, Pc.holdsSlot, if_true] at h1 h3
        show w.sys.s.semaphore.len = 1
        omega
    | signing sl k g e =>
      cases ph with
      | unsigned => simp [Pc.fits] at hfit
      | cached => simp [Pc.fits] at hfit
      | signing =>
        have hf : sl = i ∧ w.slices.getD i [] = sortStrings hosts ∧ k = hostKey hosts ∧
            g = c₀ ∧ e = none := by
          simpa [Pc.fits] using hfit
        obtain ⟨rfl, hsl, rfl, rfl, rfl⟩ := hf
        simp only [stepThread, Option.some.injEq, Prod.mk.injEq] at hs
        obtain ⟨rfl, rfl, rfl⟩ := hs
        exact ⟨Phase.signing, SingleGen_intro n₀ ttl t₀ ca hosts g w sl _ _ _ _ hslot' httl
          hkeep ⟨rfl, hsl, rfl, rfl⟩ hstate⟩
    | store sl k g =>
      cases ph with
      | unsigned => simp [Pc.fits] at hfit
      | cached => simp [Pc.fits] at hfit
      | signing =>
        have hf : sl = i ∧ w.slices.getD i [] = sortStrings hosts ∧ k = hostKey hosts ∧
            g = c₀ := by
          simpa [Pc.fits] using hfit
        obtain ⟨rfl, hsl, rfl, rfl⟩ := hf
        simp only [stepThread, Option.some.injEq, Prod.mk.injEq] at hs
        obtain ⟨rfl, rfl, rfl⟩ := hs
        refine ⟨Phase.cached, SingleGen_intro n₀ ttl t₀ ca hosts g w sl _ _ _ _ hslot'
          (by simpa [ExpiringCertMap.Store] using httl)
          (hmove rfl (by decide) Phase.cached) ⟨rfl, rfl, rfl, hsl⟩ ?_⟩
        refine ⟨⟨now + ttl, by simp [ExpiringCertMap.Store, Time.Add, httl],
          add_le_add_right hwin.1 _⟩, ?_⟩
        simpa [invocations, Event.isSign] using hstate.2.1
    | unlock c e sl =>
      cases ph with
      | unsigned => simp [Pc.fits] at hfit
      | signing => simp [Pc.fits] at hfit
      | cached =>
        have hf : c = c₀ ∧ e = none ∧ sl = i ∧ w.slices.getD i [] = sortStrings hosts := by
          simpa [Pc.fits] using hfit
        obtain ⟨rfl, rfl, rfl, hsl⟩ := hf
        simp only [stepThread, Chan.recv] at hs
        by_cases hr : 0 < w.sys.s.semaphore.len
        · simp only [hr, if_true, Option.some.injEq, Prod.mk.injEq] at hs
          obtain ⟨rfl, rfl, rfl⟩ := hs
          refine ⟨Phase.cached, SingleGen_intro n₀ ttl t₀ ca hosts c w sl _ _ _ _ hslot' httl
            hkeep ⟨rfl, rfl, rfl, hsl⟩ ?_⟩
          simpa [Phase.state, invocations, Event.isSign] using hstate
        · simp [hr] at hs
    | returned c e sl => simp [stepThread] at hs

theorem World.SingleGen_exec (sign : Signer) (n₀ : Nat) (ttl : Duration) (t₀ : Time) (ca : CA)
    (hosts : List String) (c₀ : CertPtr)
    (hsign : sign n₀ ca (sortStrings hosts) = (c₀, none)) :
    ∀ (sched : List Action) (w : World) (ph : Phase),
      (∀ a ∈ sched, t₀ ≤ a.time ∧ a.time ≤ t₀ + ttl) →
      w.SingleGen n₀ ttl t₀ ca hosts c₀ ph →
      ∃ ph', (w.exec sign sched).SingleGen n₀ ttl t₀ ca hosts c₀ ph' := by
  intro sched
  induction sched with
  | nil => intro w ph _ hinv; exact ⟨ph, hinv⟩
  | cons a rest ih =>
    intro w ph hwin hinv
    simp only [World.exec]
    have hrest : ∀ b ∈ rest, t₀ ≤ b.time ∧ b.time ≤ t₀ + ttl :=
      fun b hb => hwin b (List.mem_cons_of_mem _ hb)
    cases hs : w.step sign a with
    | none => simpa using ih w ph hrest hinv
    | some w' =>
      obtain ⟨ph', hinv'⟩ := World.SingleGen_step sign n₀ ttl t₀ ca hosts c₀ ph w w' a hsign
        (hwin a (List.mem_cons_self _ _)) hinv hs
      simpa using ih w' ph' hrest hinv'

theorem World.SingleGen_launch (σ : Sys) (swept : ExpiringCertMap CertPtr) (t₀ : Time) (ca : CA)
    (hosts : List String) (c₀ : CertPtr) (hs : List (List String))
    (hperm : ∀ h ∈ hs, h.Perm hosts)
    (hsem : σ.s.semaphore = Chan.make 1)
    (hnew : σ.s.cache.data (hostKey hosts) = none) :
    (World.launch σ swept hs (ownSlices ca hs.length)).SingleGen (invocations σ.log)
      σ.s.cache.TTL t₀ ca hosts c₀ Phase.unsigned := by
  refine ⟨World.SlotInv_launch σ swept _ _ hsem, rfl, ?_, hnew, rfl⟩
  intro j pc hj
  simp only [World.launch, ownSlices, List.map_map, List.getElem?_map, List.getElem?_range,
    Function.comp] at hj
  by_cases hlt : j < hs.length
  · simp only [List.getElem?_range hlt, Option.map_some', Option.some.injEq] at hj
    subst hj
    refine ⟨rfl, rfl, ?_⟩
    show (hs.getD j []).Perm hosts
    rw [List.getD_eq_getElem _ _ hlt]
    exact hperm _ (List.getElem_mem _)
  · have : (List.range hs.length)[j]? = none := by
      simp [List.getElem?_eq_none, not_lt.mp hlt]
    simp [this] at hj

/-! ## Interleavings: every execution can be completed -/

theorem World.exec_append (sign : Signer) (s₁ s₂ : List Action) (w : World) :
    w.exec sign (s₁ ++ s₂) = (w.exec sign s₁).exec sign s₂ := by
  induction s₁ generalizing w with
  | nil => rfl
  | cons a rest ih =>
    rw [List.cons_append]
    simp only [World.exec]
    exact ih _

theorem World.step_length (sign : Signer) (w w' : World) (a : Action)
    (h : w.step sign a = some w') : w'.threads.length = w.threads.length := by
  cases a with
  | tick now =>
    simp only [World.step, Option.some.injEq] at h
    subst h
    rfl
  | run i now =>
    obtain ⟨pc, σ', mem', pc', _, _, rfl⟩ := World.step_run_eq sign w w' i now h
    simp

theorem World.exec_length (sign : Signer) (sched : List Action) (w : World) :
    (w.exec sign sched).threads.length = w.threads.length := by
  induction sched generalizing w with
  | nil => rfl
  | cons a rest ih =>
    simp only [World.exec]
    cases hs : w.step sign a with
    | none => simpa using ih w
    | some w' =>
      simp only [Option.getD_some]
      rw [ih w', World.step_length sign w w' a hs]

theorem getD_set_length (mem : List (List String)) (sl k j : Nat) :
    ((mem.set sl (swapAt (mem.getD sl []) j)).getD k []).length = (mem.getD k []).length := by
  by_cases h : k = sl
  · subst h
    rw [getD_set_self mem k (fun s => swapAt s j) (swapAt_nil j), swapAt_length]
  · rw [getD_set_ne _ _ _ _ h]

/-- A step moves no call to another slice and changes the length of no
slice. -/
theorem stepThread_shape (sign : Signer) (σ σ' : Sys) (mem mem' : List (List String))
    (now : Time) (pc pc' : Pc) (h : stepThread sign σ mem now pc = some (σ', mem', pc')) :
    pc'.slice = pc.slice ∧ ∀ k, (mem'.getD k []).length = (mem.getD k []).length := by
  cases pc with
  | entry ca sl =>
    simp only [stepThread] at h
    split at h <;>
    · simp only [Option.some.injEq, Prod.mk.injEq] at h
      obtain ⟨rfl, rfl, rfl⟩ := h
      exact ⟨rfl, fun _ => rfl⟩
  | sortCmp ca sl i j =>
    simp only [stepThread] at h
    split at h
    · simp only [Option.some.injEq, Prod.mk.injEq] at h
      obtain ⟨rfl, rfl, rfl⟩ := h
      exact ⟨rfl, fun _ => rfl⟩
    · split at h <;>
      · simp only [Option.some.injEq, Prod.mk.injEq] at h
        obtain ⟨rfl, rfl, rfl⟩ := h
        exact ⟨rfl, fun _ => rfl⟩
  | sortSwap ca sl i j =>
    simp only [stepThread, Option.some.injEq, Prod.mk.injEq] at h
    obtain ⟨rfl, rfl, rfl⟩ := h
    exact ⟨rfl, fun k => getD_set_length mem sl k j⟩
  | join ca sl =>
    simp only [stepThread, Option.some.injEq, Prod.mk.injEq] at h
    obtain ⟨rfl, rfl, rfl⟩ := h
    exact ⟨rfl, fun _ => rfl⟩
  | awaitSlot ca sl k =>
    simp only [stepThread] at h
    cases hs : σ.s.semaphore.send with
    | none => simp [hs] at h
    | some ch =>
      simp only [hs, Option.some.injEq, Prod.mk.injEq] at h
      obtain ⟨rfl, rfl, rfl⟩ := h
      exact ⟨rfl, fun _ => rfl⟩
  | lookup ca sl k =>
    simp only [stepThread] at h
    cases hl : σ.s.cache.Load now k with
    | none =>
      simp only [hl, Option.some.injEq, Prod.mk.injEq] at h
      obtain ⟨rfl, rfl, rfl⟩ := h
      exact ⟨rfl, fun _ => rfl⟩
    | some c =>
      simp only [hl, Option.some.injEq, Prod.mk.injEq] at h
      obtain ⟨rfl, rfl, rfl⟩ := h
      exact ⟨rfl, fun _ => rfl⟩
  | generate ca sl k =>
    simp only [stepThread, Option.some.injEq, Prod.mk.injEq] at h
    obtain ⟨rfl, rfl, rfl⟩ := h
    exact ⟨rfl, fun _ => rfl⟩
  | signing sl k g e =>
    cases e with
    | none =>
      simp only [stepThread, Option.some.injEq, Prod.mk.injEq] at h
      obtain ⟨rfl, rfl, rfl⟩ := h
      exact ⟨rfl, fun _ => rfl⟩
    | some e' =>
      simp only [stepThread, Option.some.injEq, Prod.mk.injEq] at h
      obtain ⟨rfl, rfl, rfl⟩ := h
      exact ⟨rfl, fun _ => rfl⟩
  | store sl k g =>
    simp only [stepThread, Option.some.injEq, Prod.mk.injEq] at h
    obtain ⟨rfl, rfl, rfl⟩ := h
    exact ⟨rfl, fun _ => rfl⟩
  | unlock c e sl =>
    simp only [stepThread] at h
    cases hs : σ.s.semaphore.recv with
    | none => simp [hs] at h
    | some ch =>
      simp only [hs, Option.some.injEq, Prod.mk.injEq] at h
      obtain ⟨rfl, rfl, rfl⟩ := h
      exact ⟨rfl, fun _ => rfl⟩
  | returned c e sl => simp [stepThread] at h

/-- A step brings the call closer to its return. -/
theorem stepThread_decreases (sign : Signer) (σ σ' : Sys) (mem mem' : List (List String))
    (now : Time) (pc pc' : Pc) (h : stepThread sign σ mem now pc = some (σ', mem', pc')) :
    pc'.remaining (mem.getD pc.slice []).length <
      pc.remaining (mem.getD pc.slice []).length := by
  cases pc with
  | entry ca sl =>
    simp only [stepThread, Pc.slice] at h ⊢
    generalize (mem.getD sl []).length = n at h ⊢
    split at h
    · simp only [Option.some.injEq, Prod.mk.injEq] at h
      obtain ⟨rfl, rfl, rfl⟩ := h
      simp only [Pc.remaining]
      have h1 : (n - 1 - 1) * (2 * n + 1) ≤ n * (2 * n + 1) :=
        Nat.mul_le_mul_right _ (by omega)
      omega
    · simp only [Option.some.injEq, Prod.mk.injEq] at h
      obtain ⟨rfl, rfl, rfl⟩ := h
      simp only [Pc.remaining]
      omega
  | sortCmp ca sl i j =>
    simp only [stepThread, Pc.slice] at h ⊢
    split at h
    · rename_i hcmp
      simp only [Option.some.injEq, Prod.mk.injEq] at h
      obtain ⟨rfl, rfl, rfl⟩ := h
      simp only [Pc.remaining]
      have := hcmp.1
      omega
    · generalize (mem.getD sl []).length = n at h ⊢
      split at h
      · rename_i hlt
        simp only [Option.some.injEq, Prod.mk.injEq] at h
        obtain ⟨rfl, rfl, rfl⟩ := h
        simp only [Pc.remaining]
        have h1 : n - 1 - i = (n - 1 - (i + 1)) + 1 := by omega
        rw [h1, Nat.add_mul, Nat.one_mul]
        generalize (n - 1 - (i + 1)) * (2 * n + 1) = P
        omega
      · simp only [Option.some.injEq, Prod.mk.injEq] at h
        obtain ⟨rfl, rfl, rfl⟩ := h
        simp only [Pc.remaining]
        omega
  | sortSwap ca sl i j =>
    simp only [stepThread, Option.some.injEq, Prod.mk.injEq] at h
    obtain ⟨rfl, rfl, rfl⟩ := h
    simp only [Pc.remaining, Pc.slice]
    omega
  | join ca sl =>
    simp only [stepThread, Option.some.injEq, Prod.mk.injEq] at h
    obtain ⟨rfl, rfl, rfl⟩ := h
    simp [Pc.remaining]
  | awaitSlot ca sl k =>
    simp only [stepThread] at h
    cases hs : σ.s.semaphore.send with
    | none => simp [hs] at h
    | some ch =>
      simp only [hs, Option.some.injEq, Prod.mk.injEq] at h
      obtain ⟨rfl, rfl, rfl⟩ := h
      simp [Pc.remaining]
  | lookup ca sl k =>
    simp only [stepThread] at h
    cases hl : σ.s.cache.Load now k with
    | none =>
      simp only [hl, Option.some.injEq, Prod.mk.injEq] at h
      obtain ⟨rfl, rfl, rfl⟩ := h
      simp [Pc.remaining]
    | some c =>
      simp only [hl, Option.some.injEq, Prod.mk.injEq] at h
      obtain ⟨rfl, rfl, rfl⟩ := h
      simp [Pc.remaining]
  | generate ca sl k =>
    simp only [stepThread, Option.some.injEq, Prod.mk.injEq] at h
    obtain ⟨rfl, rfl, rfl⟩ := h
    simp [Pc.remaining]
  | signing sl k g e =>
    cases e with
    | none =>
      simp only [stepThread, Option.some.injEq, Prod.mk.injEq] at h
      obtain ⟨rfl, rfl, rfl⟩ := h
      simp [Pc.remaining]
    | some e' =>
      simp only [stepThread, Option.some.injEq, Prod.mk.injEq] at h
      obtain ⟨rfl, rfl, rfl⟩ := h
      simp [Pc.remaining]
  | store sl k g =>
    simp only [stepThread, Option.some.injEq, Prod.mk.injEq] at h
    obtain ⟨rfl, rfl, rfl⟩ := h
    simp [Pc.remaining]
  | unlock c e sl =>
    simp only [stepThread] at h
    cases hs : σ.s.semaphore.recv with
    | none => simp [hs] at h
    | some ch =>
      simp only [hs, Option.some.injEq, Prod.mk.injEq] at h
      obtain ⟨rfl, rfl, rfl⟩ := h
      simp [Pc.remaining]
  | returned c e sl => simp [stepThread] at h

/-- A call that has not returned can move, unless it waits for the slot while
the channel is full. -/
theorem stepThread_enabled (sign : Signer) (σ : Sys) (mem : List (List String)) (now : Time)
    (pc : Pc) (hpc : pc.isReturned = false)
    (hsend : pc.holdsSlot = false → σ.s.semaphore.len < σ.s.semaphore.cap)
    (hrecv : pc.holdsSlot = true → 0 < σ.s.semaphore.len) :
    ∃ r, stepThread sign σ mem now pc = some r := by
  cases pc with
  | entry ca sl =>
    simp only [stepThread]
    split <;> exact ⟨_, rfl⟩
  | sortCmp ca sl i j =>
    simp only [stepThread]
    split
    · exact ⟨_, rfl⟩
    · split <;> exact ⟨_, rfl⟩
  | sortSwap ca sl i j => exact ⟨_, rfl⟩
  | join ca sl => exact ⟨_, rfl⟩
  | awaitSlot ca sl k =>
    have := hsend rfl
    simp only [stepThread, Chan.send, this, if_true]
    exact ⟨_, rfl⟩
  | lookup ca sl k =>
    cases hl : σ.s.cache.Load now k with
    | none =>
      simp only [stepThread, hl]
      exact ⟨_, rfl⟩
    | some c =>
      simp only [stepThread, hl]
      exact ⟨_, rfl⟩
  | generate ca sl k => exact ⟨_, rfl⟩
  | signing sl k g e =>
    cases e with
    | none => exact ⟨_, rfl⟩
    | some e' => exact ⟨_, rfl⟩
  | store sl k g => exact ⟨_, rfl⟩
  | unlock c e sl =>
    have := hrecv rfl
    simp only [stepThread, Chan.recv, this, if_true]
    exact ⟨_, rfl⟩
  | returned c e sl => simp [Pc.isReturned] at hpc

theorem World.run_enabled (sign : Signer) (w : World) (i : Nat) (now : Time) (pc : Pc)
    (hinv : w.SlotInv) (hi : w.threads[i]? = some pc) (hpc : pc.isReturned = false)
    (hothers : ∀ (j : Nat) (q : Pc), w.threads[j]? = some q → j ≠ i → q.holdsSlot = false) :
    ∃ σ' mem' pc', w.step sign (Action.run i now) =
        some { w with sys := σ', slices := mem', threads := w.threads.set i pc' } ∧
      stepThread sign w.sys w.slices now pc = some (σ', mem', pc') ∧
      pc'.remaining (w.slices.getD pc.slice []).length < w.remaining pc := by
  obtain ⟨hcap, hle, hlen⟩ := hinv
  simp only [World.holders] at hlen
  have hsend : pc.holdsSlot = false → w.sys.s.semaphore.len < w.sys.s.semaphore.cap := by
    intro hh
    have hz : w.threads.countP Pc.holdsSlot = 0 := by
      rw [List.countP_eq_zero]
      intro q hq
      obtain ⟨j, hj⟩ := List.mem_iff_getElem?.mp hq
      by_cases hji : j = i
      · subst hji
        rw [hi] at hj
        cases hj
        simp [hh]
      · simp [hothers j q hj hji]
    omega
  have hrecv : pc.holdsSlot = true → 0 < w.sys.s.semaphore.len := by
    intro hh
    have : 0 < w.threads.countP Pc.holdsSlot :=
      List.countP_pos_iff.mpr ⟨pc, List.getElem?_mem hi, hh⟩
    omega
  obtain ⟨⟨σ', mem', pc'⟩, hs⟩ := stepThread_enabled sign w.sys w.slices now pc hpc hsend hrecv
  exact ⟨σ', mem', pc', by simp only [World.step, hi, hs], hs,
    stepThread_decreases sign w.sys σ' w.slices mem' now pc pc' hs⟩

/-- Every call of the world is at most `F` steps away from having returned. -/
theorem World.bounded_step (sign : Signer) (F : Nat) (w w' : World) (a : Action)
    (hb : ∀ (j : Nat) (q : Pc), w.threads[j]? = some q → w.remaining q ≤ F)
    (h : w.step sign a = some w') :
    ∀ (j : Nat) (q : Pc), w'.threads[j]? = some q → w'.remaining q ≤ F := by
  cases a with
  | tick now =>
    simp only [World.step, Option.some.injEq] at h
    subst h
    exact hb
  | run i now =>
    obtain ⟨pc, σ', mem', pc', hi, hs, rfl⟩ := World.step_run_eq sign w w' i now h
    obtain ⟨hsl, hlen⟩ := stepThread_shape sign w.sys σ' w.slices mem' now pc pc' hs
    have hdec := stepThread_decreases sign w.sys σ' w.slices mem' now pc pc' hs
    intro j q hj
    simp only [World.remaining, hlen]
    simp only [List.getElem?_set] at hj
    by_cases hij : i = j
    · simp only [hij, if_true] at hj
      by_cases hlt : j < w.threads.length
      · simp only [hlt, if_true, Option.some.injEq] at hj
        subst hj
        have h1 := hb i pc hi
        simp only [World.remaining] at h1
        rw [hsl]
        omega
      · simp [hlt] at hj
    · simp only [hij, if_false] at hj
      exact hb j q hj

theorem World.bounded_exec (sign : Signer) (F : Nat) (sched : List Action) (w : World)
    (hb : ∀ (j : Nat) (q : Pc), w.threads[j]? = some q → w.remaining q ≤ F) :
    ∀ (j : Nat) (q : Pc), (w.exec sign sched).threads[j]? = some q →
      (w.exec sign sched).remaining q ≤ F := by
  induction sched generalizing w with
  | nil => exact hb
  | cons a rest ih =>
    simp only [World.exec]
    cases hs : w.step sign a with
    | none => simpa using ih w hb
    | some w' => simpa using ih w' (World.bounded_step sign F w w' a hb hs)

theorem World.exec_finish (sign : Signer) (i : Nat) (now : Time) :
    ∀ (n : Nat) (w : World) (pc : Pc), w.SlotInv → w.threads[i]? = some pc →
      (∀ (j : Nat) (q : Pc), w.threads[j]? = some q → j ≠ i → q.holdsSlot = false) →
      w.remaining pc ≤ n →
      (∃ c e sl, (w.exec sign (finish i now n)).threads[i]? = some (Pc.returned c e sl)) ∧
      (∀ j, j ≠ i → (w.exec sign (finish i now n)).threads[j]? = w.threads[j]?) := by
  intro n
  induction n with
  | zero =>
    intro w pc _ hi _ hrem
    cases pc <;> simp [World.remaining, Pc.remaining] at hrem
    exact ⟨⟨_, _, _, hi⟩, fun _ _ => rfl⟩
  | succ n ih =>
    intro w pc hinv hi hothers hrem
    simp only [finish, List.replicate_succ, World.exec]
    cases hret : pc.isReturned with
    | true =>
      have hnone : w.step sign (Action.run i now) = none := by
        cases pc <;> simp [Pc.isReturned] at hret
        simp [World.step, hi, stepThread]
      rw [hnone]
      simp only [Option.getD_none]
      exact ih w pc hinv hi hothers
        (by cases pc <;> simp [Pc.isReturned, World.remaining, Pc.remaining] at hret ⊢)
    | false =>
      obtain ⟨σ', mem', pc', hs, hst, hr⟩ := World.run_enabled sign w i now pc hinv hi hret hothers
      obtain ⟨hsl, hlen⟩ := stepThread_shape sign w.sys σ' w.slices mem' now pc pc' hst
      rw [hs]
      simp only [Option.getD_some]
      have hlt : i < w.threads.length := (List.getElem?_eq_some.mp hi).1
      have hinv' := World.SlotInv_step sign w _ _ hinv hs
      have hi' : (w.threads.set i pc')[i]? = some pc' := by
        simp [List.getElem?_set, hlt]
      have hothers' : ∀ (j : Nat) (q : Pc), (w.threads.set i pc')[j]? = some q → j ≠ i →
          q.holdsSlot = false := by
        intro j q hj hji
        rw [List.getElem?_set_ne (fun h => hji h.symm)] at hj
        exact hothers j q hj hji
      have hrem' : ({ w with sys := σ', slices := mem', threads := w.threads.set i pc' } :
          World).remaining pc' ≤ n := by
        simp only [World.remaining, hlen, hsl]
        simp only [World.remaining] at hrem hr
        omega
      obtain ⟨h1, h2⟩ := ih { w with sys := σ', slices := mem', threads := w.threads.set i pc' }
        pc' hinv' hi' hothers' hrem'
      refine ⟨h1, fun j hji => ?_⟩
      have := h2 j hji
      simp only [finish] at this
      rw [this]
      exact List.getElem?_set_ne (fun h => hji h.symm)

theorem World.quiet_after_finish (sign : Signer) (i : Nat) (now : Time) (F : Nat) (w : World)
    (pc : Pc) (hinv : w.SlotInv) (hi : w.threads[i]? = some pc)
    (hothers : ∀ (j : Nat) (q : Pc), w.threads[j]? = some q → j ≠ i → q.holdsSlot = false)
    (hF : w.remaining pc ≤ F) :
    (w.exec sign (finish i now F)).quiet ∧
    (∃ c e sl, (w.exec sign (finish i now F)).threads[i]? = some (Pc.returned c e sl)) ∧
    (∀ j, j ≠ i → (w.exec sign (finish i now F)).threads[j]? = w.threads[j]?) := by
  obtain ⟨h1, h2⟩ := World.exec_finish sign i now F w pc hinv hi hothers hF
  refine ⟨?_, h1, h2⟩
  intro j q hj
  by_cases hji : j = i
  · subst hji
    obtain ⟨c, e, sl, hr⟩ := h1
    rw [hr] at hj
    cases hj
    rfl
  · rw [h2 j hji] at hj
    exact hothers j q hj hji

theorem World.exec_finishAll (sign : Signer) (now : Time) (F : Nat) :
    ∀ (k : Nat) (w : World), w.SlotInv → w.quiet →
      (∀ (j : Nat) (q : Pc), w.threads[j]? = some q → w.remaining q ≤ F) →
      k ≤ w.threads.length →
      (w.exec sign (finishAll now F k)).quiet ∧
      (∀ j, j < k → ∃ c e sl,
        (w.exec sign (finishAll now F k)).threads[j]? = some (Pc.returned c e sl)) := by
  intro k
  induction k with
  | zero =>
    intro w _ hq _ _
    exact ⟨hq, fun j hj => absurd hj (Nat.not_lt_zero j)⟩
  | succ k ih =>
    intro w hinv hq hb hk
    obtain ⟨hq₁, hret₁⟩ := ih w hinv hq hb (by omega)
    simp only [finishAll, World.exec_append]
    have hinv₁ := World.SlotInv_exec sign (finishAll now F k) w hinv
    have hlen₁ := World.exec_length sign (finishAll now F k) w
    have hb₁ := World.bounded_exec sign F (finishAll now F k) w hb
    have hk₁ : k < (w.exec sign (finishAll now F k)).threads.length := by omega
    have hi : (w.exec sign (finishAll now F k)).threads[k]? =
        some ((w.exec sign (finishAll now F k)).threads[k]) := List.getElem?_eq_getElem hk₁
    obtain ⟨hq₂, hret₂, hsame⟩ := World.quiet_after_finish sign k now F _ _ hinv₁ hi
      (fun j q hj _ => hq₁ j q hj) (hb₁ k _ hi)
    refine ⟨hq₂, fun j hj => ?_⟩
    by_cases hjk : j = k
    · subst hjk; exact hret₂
    · rw [hsame j hjk]
      exact hret₁ j (by omega)

theorem finish_time (i : Nat) (now : Time) (F : Nat) : ∀ a ∈ finish i now F, a.time = now := by
  intro a ha
  simp only [finish] at ha
  rw [List.eq_of_mem_replicate ha]
  rfl

theorem finishAll_time (now : Time) (F : Nat) :
    ∀ (k : Nat), ∀ a ∈ finishAll now F k, a.time = now := by
  intro k
  induction k with
  | zero => intro a ha; simp [finishAll] at ha
  | succ k ih =>
    intro a ha
    simp only [finishAll, List.mem_append] at ha
    rcases ha with ha | ha
    · exact ih a ha
    · exact finish_time k now F a ha

theorem World.exists_bound (w : World) :
    ∃ F, ∀ (j : Nat) (q : Pc), w.threads[j]? = some q → w.remaining q ≤ F := by
  have : ∀ l : List Pc, ∃ F, ∀ q ∈ l, w.remaining q ≤ F := by
    intro l
    induction l with
    | nil => exact ⟨0, fun q hq => by cases hq⟩
    | cons p l ih =>
      obtain ⟨F, hF⟩ := ih
      refine ⟨max F (w.remaining p), fun q hq => ?_⟩
      rcases List.mem_cons.mp hq with rfl | hq
      · exact le_max_right _ _
      · exact le_trans (hF q hq) (le_max_left _ _)
  obtain ⟨F, hF⟩ := this w.threads
  exact ⟨F, fun j q hj => hF q (List.getElem?_mem hj)⟩

/-- From any state that satisfies the slot invariant, some schedule lets
every call return. -/
theorem World.can_complete (sign : Signer) (now : Time) (w : World) (hinv : w.SlotInv) :
    ∃ rest : List Action, (∀ a ∈ rest, a.time = now) ∧
      ∀ j, j < w.threads.length → ∃ c e sl,
        (w.exec sign rest).threads[j]? = some (Pc.returned c e sl) := by
  obtain ⟨F, hF⟩ := World.exists_bound w
  by_cases hq : w.quiet
  · refine ⟨finishAll now F w.threads.length, finishAll_time now F _, ?_⟩
    exact (World.exec_finishAll sign now F w.threads.length w hinv hq hF (le_refl _)).2
  · simp only [World.quiet, not_forall] at hq
    obtain ⟨i, pc, hi, hh⟩ := hq
    have hh' : pc.holdsSlot = true := by simpa using hh
    obtain ⟨hq₁, _, _⟩ := World.quiet_after_finish sign i now F w pc hinv hi
      (fun j q hj hji => others_quiet w hinv i pc hi hh' j q hj hji) (hF i pc hi)
    refine ⟨finish i now F ++ finishAll now F w.threads.length, ?_, ?_⟩
    · intro a ha
      rcases List.mem_append.mp ha with ha | ha
      · exact finish_time i now F a ha
      · exact finishAll_time now F _ a ha
    · rw [World.exec_append]
      have hlen := World.exec_length sign (finish i now F) w
      have := (World.exec_finishAll sign now F w.threads.length (w.exec sign (finish i now F))
        (World.SlotInv_exec sign _ w hinv) hq₁ (World.bounded_exec sign F _ w hF)
        (by omega)).2
      exact this

/-! ## Single generation under concurrency -/

/-- Under the invariant, a returned call has returned `(c₀, nil)` and the
signer has been invoked exactly once; in every phase it has been invoked at
most once. -/
theorem World.SingleGen_returned (n₀ : Nat) (ttl : Duration) (t₀ : Time) (ca : CA)
    (hosts : List String) (c₀ : CertPtr) (ph : Phase) (w : World)
    (hinv : w.SingleGen n₀ ttl t₀ ca hosts c₀ ph) :
    invocations w.sys.log ≤ n₀ + 1 ∧
    ∀ (j : Nat) (c : CertPtr) (e : Option Err) (sl : Nat),
      w.threads[j]? = some (Pc.returned c e sl) →
      c = c₀ ∧ e = none ∧ sl = j ∧ w.slices.getD j [] = sortStrings hosts ∧
        invocations w.sys.log = n₀ + 1 := by
  obtain ⟨_, _, hfits, hstate⟩ := hinv
  constructor
  · cases ph with
    | unsigned => have := hstate.2; omega
    | signing => have := hstate.2.1; omega
    | cached => have := hstate.2; omega
  · intro j c e sl hj
    have hf := hfits j _ hj
    cases ph with
    | unsigned => simp [Pc.fits] at hf
    | signing => simp [Pc.fits] at hf
    | cached =>
      have hf' : c = c₀ ∧ e = none ∧ sl = j ∧ w.slices.getD j [] = sortStrings hosts := hf
      exact ⟨hf'.1, hf'.2.1, hf'.2.2.1, hf'.2.2.2, hstate.2⟩

set_option maxRecDepth 100000 in
/-- C10, as stated, fails, in two ways.  Two calls that were passed one
slice `["b.com", "a.com"]` right after `newCachedSigner(2)`, all clock values
0: in the interleaving `raceSchedule` both calls test `hosts[1] < hosts[0]`
before either swaps, the second swap undoes the first, the calls build the
keys `a.com;b.com` and `b.com;a.com`, the signer is invoked twice and the
calls return different certificates.  And one call for `["a", "b"]`, a
hostname set the signer has not seen, made in the state `sysAB` that a call
for `["a;b"]` leaves: it finds the key `a;b`, returns that certificate and the
signer is not invoked. -/
theorem single_generation_fails :
    (((World.start 2 [["b.com", "a.com"]] [(7, 0), (7, 0)]).exec freshSigner
        raceSchedule).threads =
      [Pc.returned (some 0) none 0, Pc.returned (some 1) none 0] ∧
     invocations ((World.start 2 [["b.com", "a.com"]] [(7, 0), (7, 0)]).exec freshSigner
        raceSchedule).sys.log = 2) ∧
    (cachedSigner.signHost freshSigner sys₀ 7 ["a;b"] 0 0 =
      some { cert := some 0, err := none, hosts := ["a;b"], sys := sysAB } ∧
     ((World.launch sysAB (newTTLMap 2).swept [["a", "b"]] [(7, 0)]).exec freshSigner
        (finish 0 0 12)).threads = [Pc.returned (some 0) none 0] ∧
     invocations ((World.launch sysAB (newTTLMap 2).swept [["a", "b"]] [(7, 0)]).exec
        freshSigner (finish 0 0 12)).sys.log = invocations sysAB.log) := by
  refine ⟨⟨by decide, by decide⟩, rfl, by decide, by decide⟩

/-- C10, amended. Single generation under concurrency, for calls on slices of
their own: `N ≥ 1` calls are made with one authority credential, call `j` on
its own slice `hs[j]`, every slice holding a permutation of one hostname list
whose key has no entry in the store, the slot being free; the invocation of
the external signer that a miss leads to succeeds with `c₀`; every clock value
read during the execution lies within `[t₀, t₀ + TTL]`.  Then, under every
interleaving of the steps of the calls (one comparison or swap of the sort,
the join, the send, the lookup, the invocation, the store, the receive) and of
sweep ticks: the signer is invoked at most once; every call that has returned
has returned `(c₀, nil)` and the signer has then been invoked exactly once; so
when all `N` calls have returned they all returned `c₀` after exactly one
invocation; and the interleaving can always be continued, within the window,
to a state in which all `N` calls have returned. -/
theorem single_generation_under_concurrency (sign : Signer) (σ : Sys)
    (swept : ExpiringCertMap CertPtr) (ca : CA) (hosts : List String)
    (hs : List (List String)) (t₀ : Time) (c₀ : CertPtr) (sched : List Action)
    (hN : 1 ≤ hs.length)
    (hperm : ∀ h ∈ hs, h.Perm hosts)
    (hsem : σ.s.semaphore = Chan.make 1)
    (hnew : σ.s.cache.data (hostKey hosts) = none)
    (hsign : sign (invocations σ.log) ca (sortStrings hosts) = (c₀, none))
    (hTTL : 0 ≤ σ.s.cache.TTL)
    (hwin : ∀ a ∈ sched, t₀ ≤ a.time ∧ a.time ≤ t₀ + σ.s.cache.TTL) :
    invocations ((World.launch σ swept hs (ownSlices ca hs.length)).exec sign sched).sys.log ≤
      invocations σ.log + 1 ∧
    (∀ (j : Nat) (c : CertPtr) (e : Option Err) (sl : Nat),
      ((World.launch σ swept hs (ownSlices ca hs.length)).exec sign sched).threads[j]? =
        some (Pc.returned c e sl) →
      c = c₀ ∧ e = none ∧
      invocations ((World.launch σ swept hs (ownSlices ca hs.length)).exec sign sched).sys.log =
        invocations σ.log + 1) ∧
    ((∀ pc ∈ ((World.launch σ swept hs (ownSlices ca hs.length)).exec sign sched).threads,
        pc.isReturned = true) →
      invocations ((World.launch σ swept hs (ownSlices ca hs.length)).exec sign sched).sys.log =
        invocations σ.log + 1 ∧
      ∀ pc ∈ ((World.launch σ swept hs (ownSlices ca hs.length)).exec sign sched).threads,
        ∃ sl, pc = Pc.returned c₀ none sl) ∧
    (∃ rest : List Action,
      (∀ a ∈ rest, t₀ ≤ a.time ∧ a.time ≤ t₀ + σ.s.cache.TTL) ∧
      ((World.launch σ swept hs (ownSlices ca hs.length)).exec sign
        (sched ++ rest)).threads.length = hs.length ∧
      (∀ pc ∈ ((World.launch σ swept hs (ownSlices ca hs.length)).exec sign
          (sched ++ rest)).threads, ∃ sl, pc = Pc.returned c₀ none sl) ∧
      invocations ((World.launch σ swept hs (ownSlices ca hs.length)).exec sign
        (sched ++ rest)).sys.log = invocations σ.log + 1) := by
  have hlaunch := World.SingleGen_launch σ swept t₀ ca hosts c₀ hs hperm hsem hnew
  have hlen₀ : (World.launch σ swept hs (ownSlices ca hs.length)).threads.length =
      hs.length := by
    simp [World.launch, ownSlices]
  obtain ⟨ph, hinv⟩ := World.SingleGen_exec sign (invocations σ.log) σ.s.cache.TTL t₀ ca hosts c₀
    hsign sched _ Phase.unsigned hwin hlaunch
  obtain ⟨hle, hret⟩ := World.SingleGen_returned _ _ _ _ _ _ _ _ hinv
  have hlen := World.exec_length sign sched (World.launch σ swept hs (ownSlices ca hs.length))
  refine ⟨hle, fun j c e sl hj => ?_, fun hall => ?_, ?_⟩
  · obtain ⟨h1, h2, _, _, h5⟩ := hret j c e sl hj
    exact ⟨h1, h2, h5⟩
  · have hall' : ∀ pc ∈ ((World.launch σ swept hs (ownSlices ca hs.length)).exec sign
        sched).threads, (∃ sl, pc = Pc.returned c₀ none sl) ∧
        invocations ((World.launch σ swept hs (ownSlices ca hs.length)).exec sign
          sched).sys.log = invocations σ.log + 1 := by
      intro pc hpc
      obtain ⟨j, hj⟩ := List.mem_iff_getElem?.mp hpc
      have hr := hall pc hpc
      cases pc with
      | returned c e sl =>
        obtain ⟨rfl, rfl, _, _, h5⟩ := hret j c e sl hj
        exact ⟨⟨sl, rfl⟩, h5⟩
      | _ => simp [Pc.isReturned] at hr
    have h0 : 0 < ((World.launch σ swept hs (ownSlices ca hs.length)).exec sign
        sched).threads.length := by omega
    exact ⟨(hall' _ (List.getElem_mem h0)).2, fun pc hpc => (hall' pc hpc).1⟩
  · obtain ⟨rest, htime, hdone⟩ := World.can_complete sign t₀ _ hinv.1
    have hwin' : ∀ a ∈ rest, t₀ ≤ a.time ∧ a.time ≤ t₀ + σ.s.cache.TTL := by
      intro a ha
      rw [htime a ha]
      exact ⟨le_refl _, le_add_of_nonneg_right hTTL⟩
    have hwin₂ : ∀ a ∈ sched ++ rest, t₀ ≤ a.time ∧ a.time ≤ t₀ + σ.s.cache.TTL := by
      intro a ha
      rcases List.mem_append.mp ha with ha | ha
      · exact hwin a ha
      · exact hwin' a ha
    obtain ⟨ph₂, hinv₂⟩ := World.SingleGen_exec sign (invocations σ.log) σ.s.cache.TTL t₀ ca
      hosts c₀ hsign (sched ++ rest) _ Phase.unsigned hwin₂ hlaunch
    obtain ⟨_, hret₂⟩ := World.SingleGen_returned _ _ _ _ _ _ _ _ hinv₂
    have hlen₂ := World.exec_length sign (sched ++ rest)
      (World.launch σ swept hs (ownSlices ca hs.length))
    rw [World.exec_append] at hret₂ hlen₂
    refine ⟨rest, hwin', ?_, ?_, ?_⟩
    · rw [World.exec_append]
      omega
    · rw [World.exec_append]
      intro pc hpc
      obtain ⟨j, hj⟩ := List.mem_iff_getElem?.mp hpc
      have hjlt : j < (((World.launch σ swept hs (ownSlices ca hs.length)).exec sign
          sched).exec sign rest).threads.length := (List.getElem?_eq_some.mp hj).1
      obtain ⟨c, e, sl, hr⟩ := hdone j (by omega)
      rw [hr] at hj
      cases hj
      obtain ⟨rfl, rfl, _, _, _⟩ := hret₂ j c e sl hr
      exact ⟨sl, rfl⟩
    · rw [World.exec_append]
      obtain ⟨c, e, sl, hr⟩ := hdone 0 (by omega)
      exact (hret₂ 0 c e sl hr).2.2.2.2

set_option maxRecDepth 100000 in
/-- C10 amended, at sample inputs: two calls right after `newCachedSigner(2)`,
one on a slice `["a.com", "b.com"]` and one on a slice `["b.com", "a.com"]`;
in the interleaving shown the second call sorts its slice, wins the slot and
signs, the first one waits, a sweep tick falls in between, and both return
the certificate of the one invocation. -/
theorem single_generation_under_concurrency_witness :
    ((World.launch sys₀ (newTTLMap 2).swept [["a.com", "b.com"], ["b.com", "a.com"]]
        (ownSlices 7 2)).exec freshSigner
        [Action.run 0 0, Action.run 1 0, Action.run 0 0, Action.run 1 0, Action.run 0 0,
         Action.run 1 0, Action.run 1 0, Action.run 1 0, Action.run 1 0, Action.run 0 0,
         Action.run 1 1, Action.run 1 1, Action.tick 1, Action.run 1 1, Action.run 1 2,
         Action.run 1 2, Action.run 0 2, Action.run 0 2, Action.run 0 2]).threads =
      [Pc.returned (some 0) none 0, Pc.returned (some 0) none 1] ∧
    invocations ((World.launch sys₀ (newTTLMap 2).swept
        [["a.com", "b.com"], ["b.com", "a.com"]] (ownSlices 7 2)).exec freshSigner
        [Action.run 0 0, Action.run 1 0, Action.run 0 0, Action.run 1 0, Action.run 0 0,
         Action.run 1 0, Action.run 1 0, Action.run 1 0, Action.run 1 0, Action.run 0 0,
         Action.run 1 1, Action.run 1 1, Action.tick 1, Action.run 1 1, Action.run 1 2,
         Action.run 1 2, Action.run 0 2, Action.run 0 2, Action.run 0 2]).sys.log ≤ invocations sys₀.log + 1 :=
  ⟨by decide,
   (single_generation_under_concurrency freshSigner sys₀ (newTTLMap 2).swept 7
      ["a.com", "b.com"] [["a.com", "b.com"], ["b.com", "a.com"]] 0 (some 0)
      [Action.run 0 0, Action.run 1 0, Action.run 0 0, Action.run 1 0, Action.run 0 0,
       Action.run 1 0, Action.run 1 0, Action.run 1 0, Action.run 1 0, Action.run 0 0,
       Action.run 1 1, Action.run 1 1, Action.tick 1, Action.run 1 1, Action.run 1 2,
       Action.run 1 2, Action.run 0 2, Action.run 0 2, Action.run 0 2]
      (by decide) (by decide) (by rfl) (by rfl) (by rfl) (by decide) (by decide)).1⟩

/-! ## The sequential call and the interleaved model agree -/

theorem World.exec_replicate_succ (sign : Signer) (w : World) (a : Action) (n : Nat) :
    w.exec sign (List.replicate (n + 1) a) =
      ((w.step sign a).getD w).exec sign (List.replicate n a) := by
  simp only [List.replicate_succ, World.exec]

theorem solo_step (sign : Signer) (σ : Sys) (swept : ExpiringCertMap CertPtr) (now : Time)
    (s s' : List String) (pc pc' : Pc)
    (h : stepThread sign σ [s] now pc = some (σ, [s'], pc')) :
    ({ sys := σ, swept := swept, slices := [s], threads := [pc] } : World).step sign
        (Action.run 0 now) =
      some { sys := σ, swept := swept, slices := [s'], threads := [pc'] } := by
  simp [World.step, h]

/-- A single call, running alone, leaves `sort.Strings` with its slice
sorted: from any point of the sort, some number of its steps leads to the
`strings.Join` with the slice holding the sorted permutation, nothing else
having changed. -/
theorem solo_sort_from (sign : Signer) (σ : Sys) (swept : ExpiringCertMap CertPtr) (ca : CA)
    (hosts : List String) (now : Time) :
    ∀ (m : Nat) (s : List String) (pc : Pc),
      ((pc = Pc.entry ca 0 ∧ s.Perm hosts) ∨
       (∃ i j, pc = Pc.sortCmp ca 0 i j ∧ SortCmpInv hosts s i j) ∨
       (∃ i j, pc = Pc.sortSwap ca 0 i j ∧ SortSwapInv hosts s i j)) →
      pc.remaining s.length ≤ m →
      ∃ n, ({ sys := σ, swept := swept, slices := [s], threads := [pc] } : World).exec sign
          (List.replicate n (Action.run 0 now)) =
        { sys := σ, swept := swept, slices := [sortStrings hosts], threads := [Pc.join ca 0] } := by
  intro m
  induction m with
  | zero =>
    intro s pc hpc hrem
    rcases hpc with ⟨rfl, _⟩ | ⟨i, j, rfl, _⟩ | ⟨i, j, rfl, _⟩ <;>
      simp [Pc.remaining] at hrem
  | succ m ih =>
    intro s pc hpc hrem
    rcases hpc with ⟨rfl, hp⟩ | ⟨i, j, rfl, hinv⟩ | ⟨i, j, rfl, hinv⟩
    · by_cases hlen : 1 < s.length
      · have hst : stepThread sign σ [s] now (Pc.entry ca 0) =
            some (σ, [s], Pc.sortCmp ca 0 1 1) := by
          simp [stepThread, hlen]
        have hdec := stepThread_decreases sign σ σ [s] [s] now _ _ hst
        obtain ⟨n, hn⟩ := ih s (Pc.sortCmp ca 0 1 1)
          (Or.inr (Or.inl ⟨1, 1, rfl, SortCmpInv_first hosts s hp hlen⟩))
          (by simp only [Pc.slice, List.getD_cons_zero] at hdec; omega)
        refine ⟨n + 1, ?_⟩
        rw [World.exec_replicate_succ, solo_step sign σ swept now _ _ _ _ hst]
        exact hn
      · have hst : stepThread sign σ [s] now (Pc.entry ca 0) = some (σ, [s], Pc.join ca 0) := by
          simp [stepThread, hlen]
        refine ⟨1, ?_⟩
        rw [World.exec_replicate_succ, solo_step sign σ swept now _ _ _ _ hst,
          ← short_sorted hosts s hp hlen]
        rfl
    · by_cases hcmp : 0 < j ∧ (s.getD j "").data < (s.getD (j - 1) "").data
      · have hst : stepThread sign σ [s] now (Pc.sortCmp ca 0 i j) =
            some (σ, [s], Pc.sortSwap ca 0 i (j - 1)) := by
          simp only [stepThread, List.getD_cons_zero, if_pos hcmp]
        have hdec := stepThread_decreases sign σ σ [s] [s] now _ _ hst
        obtain ⟨n, hn⟩ := ih s (Pc.sortSwap ca 0 i (j - 1))
          (Or.inr (Or.inr ⟨i, j - 1, rfl, SortCmpInv_swap hosts s i j hinv hcmp⟩))
          (by simp only [Pc.slice, List.getD_cons_zero] at hdec; omega)
        refine ⟨n + 1, ?_⟩
        rw [World.exec_replicate_succ, solo_step sign σ swept now _ _ _ _ hst]
        exact hn
      · obtain ⟨P, R, hPR, hlenP, hsorted⟩ := SortCmpInv_exit hosts s i j hinv hcmp
        by_cases hlt : i + 1 < s.length
        · have hst : stepThread sign σ [s] now (Pc.sortCmp ca 0 i j) =
              some (σ, [s], Pc.sortCmp ca 0 (i + 1) (i + 1)) := by
            simp only [stepThread, List.getD_cons_zero, if_neg hcmp, if_pos hlt]
          have hdec := stepThread_decreases sign σ σ [s] [s] now _ _ hst
          obtain ⟨n, hn⟩ := ih s (Pc.sortCmp ca 0 (i + 1) (i + 1))
            (Or.inr (Or.inl ⟨i + 1, i + 1, rfl,
              SortCmpInv_next hosts s i hinv.1 P R hPR hlenP hsorted hlt⟩))
            (by simp only [Pc.slice, List.getD_cons_zero] at hdec; omega)
          refine ⟨n + 1, ?_⟩
          rw [World.exec_replicate_succ, solo_step sign σ swept now _ _ _ _ hst]
          exact hn
        · have hst : stepThread sign σ [s] now (Pc.sortCmp ca 0 i j) =
              some (σ, [s], Pc.join ca 0) := by
            simp only [stepThread, List.getD_cons_zero, if_neg hcmp, if_neg hlt]
          refine ⟨1, ?_⟩
          rw [World.exec_replicate_succ, solo_step sign σ swept now _ _ _ _ hst,
            ← sorted_of_prefix hosts s i hinv.1 P R hPR hlenP hsorted hlt]
          rfl
    · have hst : stepThread sign σ [s] now (Pc.sortSwap ca 0 i j) =
          some (σ, [swapAt s j], Pc.sortCmp ca 0 i j) := by
        simp only [stepThread, List.getD_cons_zero, List.set_cons_zero]
      have hdec := stepThread_decreases sign σ σ [s] [swapAt s j] now _ _ hst
      obtain ⟨n, hn⟩ := ih (swapAt s j) (Pc.sortCmp ca 0 i j)
        (Or.inr (Or.inl ⟨i, j, rfl, SortSwapInv_swap hosts s i j hinv⟩))
        (by simp only [Pc.slice, List.getD_cons_zero] at hdec; rw [swapAt_length]; omega)
      refine ⟨n + 1, ?_⟩
      rw [World.exec_replicate_succ, solo_step sign σ swept now _ _ _ _ hst]
      exact hn

/-- The sequential `signHost` is the interleaved model run with a single call
on its own slice: the steps of the sort, then seven more steps of that call,
its `Load` step at `tLoad` and its `Store` step at `tStore`, end in `returned`
with the same results, the same state and the same contents of the slice. -/
theorem signHost_eq_solo_run (sign : Signer) (σ : Sys) (swept : ExpiringCertMap CertPtr)
    (ca : CA) (hosts : List String) (tLoad tStore : Time) (r : Ret)
    (h : cachedSigner.signHost sign σ ca hosts tLoad tStore = some r) :
    ∃ n,
      ((World.launch σ swept [hosts] [(ca, 0)]).exec sign
        (List.replicate n (Action.run 0 tLoad) ++
          [Action.run 0 tLoad, Action.run 0 tLoad, Action.run 0 tLoad, Action.run 0 tLoad,
           Action.run 0 tStore, Action.run 0 tStore, Action.run 0 tStore])).threads =
        [Pc.returned r.cert r.err 0] ∧
      ((World.launch σ swept [hosts] [(ca, 0)]).exec sign
        (List.replicate n (Action.run 0 tLoad) ++
          [Action.run 0 tLoad, Action.run 0 tLoad, Action.run 0 tLoad, Action.run 0 tLoad,
           Action.run 0 tStore, Action.run 0 tStore, Action.run 0 tStore])).sys = r.sys ∧
      ((World.launch σ swept [hosts] [(ca, 0)]).exec sign
        (List.replicate n (Action.run 0 tLoad) ++
          [Action.run 0 tLoad, Action.run 0 tLoad, Action.run 0 tLoad, Action.run 0 tLoad,
           Action.run 0 tStore, Action.run 0 tStore, Action.run 0 tStore])).slices =
        [r.hosts] := by
  obtain ⟨n, hn⟩ := solo_sort_from sign σ swept ca hosts tLoad _ hosts (Pc.entry ca 0)
    (Or.inl ⟨rfl, List.Perm.refl _⟩) (le_refl _)
  refine ⟨n, ?_⟩
  have hlaunch : World.launch σ swept [hosts] [(ca, 0)] =
      { sys := σ, swept := swept, slices := [hosts], threads := [Pc.entry ca 0] } := rfl
  rw [World.exec_append, hlaunch, hn]
  have hfree : σ.s.semaphore.len < σ.s.semaphore.cap := by
    by_contra hn
    rw [(signHost_eq_none_iff sign σ ca hosts tLoad tStore).mpr hn] at h
    cases h
  have hsend := Chan.send_of_room _ hfree
  cases hl : σ.s.cache.Load tLoad (hostKey hosts) with
  | some c =>
    rw [signHost_hit sign σ ca hosts tLoad tStore c hfree hl] at h
    cases h
    simp only [hostKey] at hl
    obtain ⟨⟨cache, ⟨cap, len⟩⟩, log⟩ := σ
    simp only at hl hsend
    simp [World.exec, World.step, stepThread, hsend, hl, Chan.recv, hostKey]
  | none =>
    rcases hs : sign (invocations σ.log) ca (sortStrings hosts) with ⟨g, e⟩
    have hinv : invocations (σ.log ++ [Event.acquire,
        Event.load (stringsJoin (sortStrings hosts) ";")]) = invocations σ.log := by
      simp [invocations, Event.isSign]
    cases e with
    | some e' =>
      rw [signHost_fail sign σ ca hosts tLoad tStore g e' hfree hl hs] at h
      cases h
      simp only [hostKey] at hl
      obtain ⟨⟨cache, ⟨cap, len⟩⟩, log⟩ := σ
      simp only at hl hsend hs hinv
      simp [World.exec, World.step, stepThread, hsend, hl, Chan.recv, hostKey, hinv, hs]
    | none =>
      rw [signHost_fresh sign σ ca hosts tLoad tStore g hfree hl hs] at h
      cases h
      simp only [hostKey] at hl
      obtain ⟨⟨cache, ⟨cap, len⟩⟩, log⟩ := σ
      simp only at hl hsend hs hinv
      simp [World.exec, World.step, stepThread, hsend, hl, Chan.recv, hostKey, hinv, hs]

/-! ## The key as a sequence of characters -/

theorem intercalate_go_data (sep : String) :
    ∀ (rest : List String) (acc : String),
      (String.intercalate.go acc sep rest).data =
        acc.data ++ (rest.map (fun a => sep.data ++ a.data)).flatten := by
  intro rest
  induction rest with
  | nil => intro acc; simp [String.intercalate.go]
  | cons a rest ih =>
    intro acc
    simp [String.intercalate.go, ih, String.data_append, List.append_assoc]

theorem sepData_eq (rest : List String) :
    sepData rest = (rest.map (fun a => ";".data ++ a.data)).flatten := by
  induction rest with
  | nil => rfl
  | cons a rest ih =>
    simp only [sepData, ih, List.map_cons, List.flatten_cons]
    rfl

theorem stringsJoin_cons_data (a : String) (rest : List String) :
    (stringsJoin (a :: rest) ";").data = a.data ++ sepData rest := by
  simp only [stringsJoin, String.intercalate, intercalate_go_data, sepData_eq]

theorem sepData_nil_or_sep (rest : List String) :
    sepData rest = [] ∨ ∃ tl, sepData rest = ';' :: tl := by
  cases rest with
  | nil => exact Or.inl rfl
  | cons a rest => exact Or.inr ⟨_, rfl⟩

theorem append_sep_inj (c : Char) :
    ∀ (x y r r' : List Char), c ∉ x → c ∉ y →
      (r = [] ∨ ∃ tl, r = c :: tl) → (r' = [] ∨ ∃ tl, r' = c :: tl) →
      x ++ r = y ++ r' → x = y ∧ r = r' := by
  intro x
  induction x with
  | nil =>
    intro y r r' _ hy hr hr' h
    cases y with
    | nil => exact ⟨rfl, h⟩
    | cons d y' =>
      exfalso
      simp only [List.nil_append, List.cons_append] at h
      rcases hr with hr | ⟨tl, hr⟩
      · rw [hr] at h; cases h
      · rw [hr] at h
        injection h with h1 _
        exact hy (by rw [h1]; exact List.mem_cons_self _ _)
  | cons d x' ih =>
    intro y r r' hx hy hr hr' h
    cases y with
    | nil =>
      exfalso
      simp only [List.nil_append, List.cons_append] at h
      rcases hr' with hr' | ⟨tl, hr'⟩
      · rw [hr'] at h; cases h
      · rw [hr'] at h
        injection h with h1 _
        exact hx (by rw [← h1]; exact List.mem_cons_self _ _)
    | cons d' y' =>
      simp only [List.cons_append] at h
      injection h with h1 h2
      obtain ⟨h3, h4⟩ := ih y' r r' (fun hm => hx (List.mem_cons_of_mem _ hm))
        (fun hm => hy (List.mem_cons_of_mem _ hm)) hr hr' h2
      exact ⟨by rw [h1, h3], h4⟩

theorem sepData_inj :
    ∀ (l₁ l₂ : List String), (∀ h ∈ l₁, noSeparator h) → (∀ h ∈ l₂, noSeparator h) →
      sepData l₁ = sepData l₂ → l₁ = l₂ := by
  intro l₁
  induction l₁ with
  | nil =>
    intro l₂ _ _ h
    cases l₂ with
    | nil => rfl
    | cons b l₂ => simp [sepData] at h
  | cons a l₁ ih =>
    intro l₂ h₁ h₂ h
    cases l₂ with
    | nil => simp [sepData] at h
    | cons b l₂ =>
      simp only [sepData, List.cons.injEq, true_and] at h
      obtain ⟨hab, hrest⟩ := append_sep_inj ';' a.data b.data (sepData l₁) (sepData l₂)
        (h₁ a (List.mem_cons_self _ _)) (h₂ b (List.mem_cons_self _ _))
        (sepData_nil_or_sep l₁) (sepData_nil_or_sep l₂) h
      rw [String.ext hab, ih l₂ (fun h hm => h₁ h (List.mem_cons_of_mem _ hm))
        (fun h hm => h₂ h (List.mem_cons_of_mem _ hm)) hrest]

/-- `strings.Join(_, ";")` is injective on non-empty lists of strings that do
not contain the separator. -/
theorem stringsJoin_inj (l₁ l₂ : List String) (hne₁ : l₁ ≠ []) (hne₂ : l₂ ≠ [])
    (h₁ : ∀ h ∈ l₁, noSeparator h) (h₂ : ∀ h ∈ l₂, noSeparator h)
    (h : stringsJoin l₁ ";" = stringsJoin l₂ ";") : l₁ = l₂ := by
  cases l₁ with
  | nil => exact absurd rfl hne₁
  | cons a l₁ =>
    cases l₂ with
    | nil => exact absurd rfl hne₂
    | cons b l₂ =>
      have hd := congrArg String.data h
      rw [stringsJoin_cons_data, stringsJoin_cons_data] at hd
      obtain ⟨hab, hrest⟩ := append_sep_inj ';' a.data b.data (sepData l₁) (sepData l₂)
        (h₁ a (List.mem_cons_self _ _)) (h₂ b (List.mem_cons_self _ _))
        (sepData_nil_or_sep l₁) (sepData_nil_or_sep l₂) hd
      rw [String.ext hab, sepData_inj l₁ l₂ (fun h hm => h₁ h (List.mem_cons_of_mem _ hm))
        (fun h hm => h₂ h (List.mem_cons_of_mem _ hm)) hrest]

/-! ## The key and the hostname set -/

/-- C11, as stated, fails: the one-element list `["a;b"]` and the two-element
list `["a", "b"]` have the same key `a;b` and are not permutations of each
other. -/
theorem hostKey_not_injective :
    ¬ ∀ h₁ h₂ : List String, h₁ ≠ [] → h₂ ≠ [] → hostKey h₁ = hostKey h₂ → h₁.Perm h₂ := by
  intro hall
  have hp := hall ["a;b"] ["a", "b"] (by decide) (by decide) (by decide)
  have := hp.length_eq
  simp at this

/-- C11, amended. For non-empty hostname lists none of whose hostnames
contains the character `;`: if sorting and joining with `;` gives the same
key for both, the lists are permutations of each other. -/
theorem hostKey_identifies_set (h₁ h₂ : List String) (hne₁ : h₁ ≠ []) (hne₂ : h₂ ≠ [])
    (hs₁ : ∀ h ∈ h₁, noSeparator h) (hs₂ : ∀ h ∈ h₂, noSeparator h)
    (hkey : hostKey h₁ = hostKey h₂) : h₁.Perm h₂ := by
  have hp₁ := sortStrings_perm h₁
  have hp₂ := sortStrings_perm h₂
  have hsort : sortStrings h₁ = sortStrings h₂ := by
    apply stringsJoin_inj _ _ _ _ _ _ hkey
    · intro hnil; rw [hnil] at hp₁; exact hne₁ (List.Perm.eq_nil hp₁.symm)
    · intro hnil; rw [hnil] at hp₂; exact hne₂ (List.Perm.eq_nil hp₂.symm)
    · intro h hm; exact hs₁ h (hp₁.subset hm)
    · intro h hm; exact hs₂ h (hp₂.subset hm)
  exact (hp₁.symm.trans (hsort ▸ List.Perm.refl _)).trans hp₂

/-- C11 amended, at sample inputs: the two orders of `a.com`, `b.com`. -/
theorem hostKey_identifies_set_witness :
    hostKey ["b.com", "a.com"] = hostKey ["a.com", "b.com"] ∧
      (["b.com", "a.com"] : List String).Perm ["a.com", "b.com"] :=
  ⟨by decide,
   hostKey_identifies_set ["b.com", "a.com"] ["a.com", "b.com"] (by decide) (by decide)
    (by simp [noSeparator]) (by simp [noSeparator]) (by decide)⟩

/-! ## Store: overwrite and frame -/

/-- C12. `Store` is an unconditional overwrite with a frame: after
`Store(k, v)` at time `now` the entry of `k` is
`(ExpiresAt = now + TTL, Value = v)` whatever the map held for `k` before,
the entry of every other key is the one the map held before, and the TTL is
unchanged. -/
theorem Store_overwrites_with_frame {α : Type} (t : ExpiringCertMap α) (now : Time)
    (k : String) (v : Option α) :
    (t.Store now k v).data k = some { ExpiresAt := now + t.TTL, Value := v } ∧
    (∀ k', k' ≠ k → (t.Store now k v).data k' = t.data k') ∧
    (t.Store now k v).TTL = t.TTL ∧
    (∀ (now' : Time) (v' : Option α),
      ((t.Store now' k v').Store now k v).data = (t.Store now k v).data) := by
  refine ⟨by simp [ExpiringCertMap.Store, Time.Add], fun k' hk => ?_, rfl, fun now' v' => ?_⟩
  · simp [ExpiringCertMap.Store, hk]
  · funext k'
    by_cases hk : k' = k <;> simp [ExpiringCertMap.Store, hk]

/-- C12, at sample inputs: `live` is written a second time in `sampleStore`;
the new entry replaces the old one and `dead` keeps its entry. -/
theorem Store_overwrites_with_frame_witness :
    (sampleStore.Store 30 "live" (some 7)).data "live" =
      some { ExpiresAt := 40, Value := some 7 } ∧
    (sampleStore.Store 30 "live" (some 7)).data "dead" =
      some { ExpiresAt := 15, Value := some 1 } :=
  ⟨(Store_overwrites_with_frame sampleStore 30 "live" (some 7)).1,
   ((Store_overwrites_with_frame sampleStore 30 "live" (some 7)).2.1 "dead" (by decide)).trans
     (by decide)⟩

/-! ## The sweep -/

/-- C13, as stated, fails: run by hand over the store `sampleStore` with
tick time 20, the sweep pass deletes the entry `live` (expires at 25), which
`Load` still returns at 20, and keeps the entry `dead` (expired at 15), which
`Load` hides. -/
theorem sweepPass_misclassifies :
    sampleStore.Load 20 "live" = some 2 ∧ sweepPass sampleStore.data 20 "live" = none ∧
    sampleStore.Load 20 "dead" = none ∧
    sweepPass sampleStore.data 20 "dead" = some { ExpiresAt := 15, Value := some 1 } := by
  decide

/-- C14, as stated, fails: at time 21, after the tick time 20, `Load`
returns the entry `live` on the store `sampleStore` and nil on the store that
one sweep pass with tick time 20, run by hand, has gone over. -/
theorem Load_depends_on_sweep :
    sampleStore.Load 21 "live" = some 2 ∧
    ({ sampleStore with data := sweepPass sampleStore.data 20 } :
      ExpiringCertMap Nat).Load 21 "live" = none := by
  decide

/-- C15. The sweep predicate is inverted: one sweep pass with tick time `T`
deletes an entry whose `ExpiresAt` is strictly after `T`, keeps an entry
whose `ExpiresAt` is at or before `T`, and the entries of the swept map are
exactly the entries of the map with `ExpiresAt ≤ T`. -/
theorem sweepPass_inverted {α : Type} (data : String → Option (expireEntry α)) (T : Time)
    (k : String) :
    (∀ e, data k = some e → T < e.ExpiresAt → sweepPass data T k = none) ∧
    (∀ e, data k = some e → e.ExpiresAt ≤ T → sweepPass data T k = some e) ∧
    (data k = none → sweepPass data T k = none) ∧
    (∀ e, sweepPass data T k = some e ↔ data k = some e ∧ e.ExpiresAt ≤ T) := by
  refine ⟨fun e he hlt => ?_, fun e he hle => ?_, fun hn => ?_, fun e => ?_⟩
  · simp [sweepPass, he, Time.After, hlt]
  · simp [sweepPass, he, Time.After, not_lt.mpr hle]
  · simp [sweepPass, hn]
  · cases hd : data k with
    | none => simp [sweepPass, hd]
    | some e' =>
      by_cases hlt : T < e'.ExpiresAt
      · simp only [sweepPass, hd, Time.After, hlt, decide_True, if_true]
        constructor
        · intro h; cases h
        · rintro ⟨h, hle⟩
          cases h
          exact absurd hlt (not_lt.mpr hle)
      · simp only [sweepPass, hd, Time.After, hlt, decide_False, Bool.false_eq_true, if_false,
          Option.some.injEq]
        constructor
        · rintro rfl; exact ⟨rfl, not_lt.mp hlt⟩
        · rintro ⟨h, _⟩; exact h

/-- C15, at sample inputs: at tick time 20 the sweep deletes `live` (expires
at 25) and keeps `dead` (expired at 15). -/
theorem sweepPass_inverted_witness :
    sweepPass sampleStore.data 20 "live" = none ∧
    sweepPass sampleStore.data 20 "dead" = some { ExpiresAt := 15, Value := some 1 } :=
  ⟨(sweepPass_inverted sampleStore.data 20 "live").1 { ExpiresAt := 25, Value := some 2 }
      (by decide) (by decide),
   (sweepPass_inverted sampleStore.data 20 "dead").2.1 { ExpiresAt := 15, Value := some 1 }
      (by decide) (by decide)⟩

/-- C16. A sweep pass blanks the map for all later reads: on a store whose
map is the result of one sweep pass with tick time `T`, `Load` returns nil
for every key at every time `now > T`. -/
theorem Load_after_sweep_nil {α : Type} (t : ExpiringCertMap α) (T now : Time) (k : String)
    (hlater : T < now) :
    ({ t with data := sweepPass t.data T } : ExpiringCertMap α).Load now k = none := by
  simp only [ExpiringCertMap.Load, sweepPass]
  cases hd : t.data k with
  | none => rfl
  | some e =>
    by_cases hlt : T < e.ExpiresAt
    · simp [Time.After, hlt]
    · have : e.ExpiresAt < now := lt_of_le_of_lt (not_lt.mp hlt) hlater
      simp [Time.After, hlt, this]

/-- C16, at sample inputs: after a sweep pass at tick time 20 both keys of
`sampleStore` read as nil at time 21. -/
theorem Load_after_sweep_nil_witness :
    ({ sampleStore with data := sweepPass sampleStore.data 20 } :
      ExpiringCertMap Nat).Load 21 "live" = none ∧
    ({ sampleStore with data := sweepPass sampleStore.data 20 } :
      ExpiringCertMap Nat).Load 21 "dead" = none :=
  ⟨Load_after_sweep_nil sampleStore 20 21 "live" (by decide),
   Load_after_sweep_nil sampleStore 20 21 "dead" (by decide)⟩

/-! ## The caller's slice -/

/-- C17. `signHost` reorders its input in place and signs the sorted list:
with the slot free the call returns, the caller's slice then holds the sorted
permutation of what was passed, on every exit; on a cache miss the operations
of the call contain exactly one invocation of the external signer, made with
the credential and that sorted list, whose results decide what the call
returns; on a cache hit the signer is not invoked. -/
theorem signHost_sorts_in_place (sign : Signer) (σ : Sys) (ca : CA) (hosts : List String)
    (tLoad tStore : Time) (hfree : σ.s.semaphore.len < σ.s.semaphore.cap) :
    ∃ r : Ret,
      cachedSigner.signHost sign σ ca hosts tLoad tStore = some r ∧
      r.hosts = sortStrings hosts ∧ r.hosts.Perm hosts ∧
      r.hosts.Sorted (fun a b => a.data ≤ b.data) ∧
      (σ.s.cache.Load tLoad (hostKey hosts) = none →
        (∃ pre post : List Event,
          r.sys.log = σ.log ++ pre ++ Event.sign ca r.hosts :: post ∧
          invocations pre = 0 ∧ invocations post = 0) ∧
        r.err = (sign (invocations σ.log) ca r.hosts).2 ∧
        (r.err = none → r.cert = (sign (invocations σ.log) ca r.hosts).1)) ∧
      (σ.s.cache.Load tLoad (hostKey hosts) ≠ none →
        invocations r.sys.log = invocations σ.log) := by
  cases hl : σ.s.cache.Load tLoad (hostKey hosts) with
  | some c =>
    refine ⟨_, signHost_hit sign σ ca hosts tLoad tStore c hfree hl, rfl,
      sortStrings_perm hosts, sortStrings_sorted hosts, fun h => (by cases h), fun _ => ?_⟩
    simp [invocations, Event.isSign]
  | none =>
    rcases hs : sign (invocations σ.log) ca (sortStrings hosts) with ⟨g, e⟩
    cases e with
    | some e' =>
      refine ⟨_, signHost_fail sign σ ca hosts tLoad tStore g e' hfree hl hs, rfl,
        sortStrings_perm hosts, sortStrings_sorted hosts, fun _ => ?_, fun h => absurd rfl h⟩
      refine ⟨⟨[Event.acquire, Event.load (hostKey hosts)], [Event.release], ?_, rfl, rfl⟩,
        ?_, ?_⟩
      · simp
      · simp [hs]
      · intro h; cases h
    | none =>
      refine ⟨_, signHost_fresh sign σ ca hosts tLoad tStore g hfree hl hs, rfl,
        sortStrings_perm hosts, sortStrings_sorted hosts, fun _ => ?_, fun h => absurd rfl h⟩
      refine ⟨⟨[Event.acquire, Event.load (hostKey hosts)],
        [Event.store (hostKey hosts), Event.release], ?_, rfl, rfl⟩, ?_, ?_⟩
      · simp
      · simp [hs]
      · intro _; simp [hs]

/-- C17, at sample inputs: a call with `["b.com", "a.com"]` right after
`newCachedSigner(2)`; the slice comes back as `["a.com", "b.com"]`, which is
not the order passed, and that is the list the signer was invoked with. -/
theorem signHost_sorts_in_place_witness :
    (∃ r : Ret,
      cachedSigner.signHost freshSigner sys₀ 7 ["b.com", "a.com"] 0 0 = some r ∧
      r.hosts = sortStrings ["b.com", "a.com"] ∧ r.hosts.Perm ["b.com", "a.com"] ∧
      r.hosts.Sorted (fun a b => a.data ≤ b.data) ∧
      (sys₀.s.cache.Load 0 (hostKey ["b.com", "a.com"]) = none →
        (∃ pre post : List Event,
          r.sys.log = sys₀.log ++ pre ++ Event.sign 7 r.hosts :: post ∧
          invocations pre = 0 ∧ invocations post = 0) ∧
        r.err = (freshSigner (invocations sys₀.log) 7 r.hosts).2 ∧
        (r.err = none → r.cert = (freshSigner (invocations sys₀.log) 7 r.hosts).1)) ∧
      (sys₀.s.cache.Load 0 (hostKey ["b.com", "a.com"]) ≠ none →
        invocations r.sys.log = invocations sys₀.log)) ∧
    sortStrings ["b.com", "a.com"] = ["a.com", "b.com"] ∧
    (cachedSigner.signHost freshSigner sys₀ 7 ["b.com", "a.com"] 0 0).map
      (fun r => r.sys.log) =
      some [Event.acquire, Event.load "a.com;b.com", Event.sign 7 ["a.com", "b.com"],
        Event.store "a.com;b.com", Event.release] :=
  ⟨signHost_sorts_in_place freshSigner sys₀ 7 ["b.com", "a.com"] 0 0 (by decide),
   by decide, by decide⟩

/-! ## The sweeping goroutine and the signer's store -/

theorem World.step_tick (sign : Signer) (w : World) (now : Time) :
    w.step sign (Action.tick now) =
      some { w with swept := { w.swept with data := sweepPass w.swept.data now } } := rfl

theorem World.exec_ticks_sys (sign : Signer) (sched : List Action) (w : World)
    (hticks : ∀ a ∈ sched, a.isTick = true) :
    (w.exec sign sched).sys = w.sys ∧ (w.exec sign sched).threads = w.threads := by
  induction sched generalizing w with
  | nil => exact ⟨rfl, rfl⟩
  | cons a rest ih =>
    have ha := hticks a (List.mem_cons_self _ _)
    cases a with
    | run i now => simp [Action.isTick] at ha
    | tick now =>
      simp only [World.exec, World.step_tick, Option.getD_some]
      exact ih _ (fun b hb => hticks b (List.mem_cons_of_mem _ hb))

theorem World.swept_empty_step (sign : Signer) (w w' : World) (a : Action)
    (hempty : ∀ k, w.swept.data k = none) (h : w.step sign a = some w') :
    ∀ k, w'.swept.data k = none := by
  cases a with
  | tick now =>
    simp only [World.step, Option.some.injEq] at h
    subst h
    intro k
    simp [sweepPass, hempty k]
  | run i now =>
    obtain ⟨pc, σ', mem', pc', _, _, rfl⟩ := World.step_run_eq sign w w' i now h
    exact hempty

theorem World.swept_empty_exec (sign : Signer) (sched : List Action) (w : World)
    (hempty : ∀ k, w.swept.data k = none) : ∀ k, (w.exec sign sched).swept.data k = none := by
  induction sched generalizing w with
  | nil => exact hempty
  | cons a rest ih =>
    simp only [World.exec]
    cases hs : w.step sign a with
    | none => simpa using ih w hempty
    | some w' => simpa using ih w' (World.swept_empty_step sign w w' a hempty hs)

/-- A step of a call changes the entry of a key only by executing `Store` on
that key, and never removes an entry. -/
theorem stepThread_cache (sign : Signer) (σ σ' : Sys) (mem mem' : List (List String))
    (now : Time) (pc pc' : Pc)
    (h : stepThread sign σ mem now pc = some (σ', mem', pc')) (k : String) :
    (∀ e, σ.s.cache.data k = some e → ∃ e', σ'.s.cache.data k = some e') ∧
    (σ'.s.cache.data k ≠ σ.s.cache.data k → ∃ sl g, pc = Pc.store sl k g) := by
  cases pc with
  | entry ca sl =>
    simp only [stepThread] at h
    split at h <;>
    · simp only [Option.some.injEq, Prod.mk.injEq] at h
      obtain ⟨rfl, rfl, rfl⟩ := h
      exact ⟨fun e he => ⟨e, he⟩, fun hne => absurd rfl hne⟩
  | sortCmp ca sl i j =>
    simp only [stepThread] at h
    split at h
    · simp only [Option.some.injEq, Prod.mk.injEq] at h
      obtain ⟨rfl, rfl, rfl⟩ := h
      exact ⟨fun e he => ⟨e, he⟩, fun hne => absurd rfl hne⟩
    · split at h <;>
      · simp only [Option.some.injEq, Prod.mk.injEq] at h
        obtain ⟨rfl, rfl, rfl⟩ := h
        exact ⟨fun e he => ⟨e, he⟩, fun hne => absurd rfl hne⟩
  | sortSwap ca sl i j =>
    simp only [stepThread, Option.some.injEq, Prod.mk.injEq] at h
    obtain ⟨rfl, rfl, rfl⟩ := h
    exact ⟨fun e he => ⟨e, he⟩, fun hne => absurd rfl hne⟩
  | join ca sl =>
    simp only [stepThread, Option.some.injEq, Prod.mk.injEq] at h
    obtain ⟨rfl, rfl, rfl⟩ := h
    exact ⟨fun e he => ⟨e, he⟩, fun hne => absurd rfl hne⟩
  | awaitSlot ca sl key =>
    simp only [stepThread] at h
    cases hs : σ.s.semaphore.send with
    | none => simp [hs] at h
    | some ch =>
      simp only [hs, Option.some.injEq, Prod.mk.injEq] at h
      obtain ⟨rfl, rfl, rfl⟩ := h
      exact ⟨fun e he => ⟨e, he⟩, fun hne => absurd rfl hne⟩
  | lookup ca sl key =>
    simp only [stepThread] at h
    cases hl : σ.s.cache.Load now key with
    | none =>
      simp only [hl, Option.some.injEq, Prod.mk.injEq] at h
      obtain ⟨rfl, rfl, rfl⟩ := h
      exact ⟨fun e he => ⟨e, he⟩, fun hne => absurd rfl hne⟩
    | some c =>
      simp only [hl, Option.some.injEq, Prod.mk.injEq] at h
      obtain ⟨rfl, rfl, rfl⟩ := h
      exact ⟨fun e he => ⟨e, he⟩, fun hne => absurd rfl hne⟩
  | generate ca sl key =>
    simp only [stepThread, Option.some.injEq, Prod.mk.injEq] at h
    obtain ⟨rfl, rfl, rfl⟩ := h
    exact ⟨fun e he => ⟨e, he⟩, fun hne => absurd rfl hne⟩
  | signing sl key g e =>
    cases e with
    | none =>
      simp only [stepThread, Option.some.injEq, Prod.mk.injEq] at h
      obtain ⟨rfl, rfl, rfl⟩ := h
      exact ⟨fun e he => ⟨e, he⟩, fun hne => absurd rfl hne⟩
    | some e' =>
      simp only [stepThread, Option.some.injEq, Prod.mk.injEq] at h
      obtain ⟨rfl, rfl, rfl⟩ := h
      exact ⟨fun e he => ⟨e, he⟩, fun hne => absurd rfl hne⟩
  | store sl key g =>
    simp only [stepThread, Option.some.injEq, Prod.mk.injEq] at h
    obtain ⟨rfl, rfl, rfl⟩ := h
    by_cases hk : k = key
    · subst hk
      exact ⟨fun e _ => ⟨{ ExpiresAt := Time.Add now σ.s.cache.TTL, Value := some g },
        by simp [ExpiringCertMap.Store]⟩, fun _ => ⟨sl, g, rfl⟩⟩
    · refine ⟨fun e he => ⟨e, by simpa [ExpiringCertMap.Store, hk] using he⟩, fun hne => ?_⟩
      exact absurd (by simp [ExpiringCertMap.Store, hk]) hne
  | unlock c e sl =>
    simp only [stepThread] at h
    cases hs : σ.s.semaphore.recv with
    | none => simp [hs] at h
    | some ch =>
      simp only [hs, Option.some.injEq, Prod.mk.injEq] at h
      obtain ⟨rfl, rfl, rfl⟩ := h
      exact ⟨fun e he => ⟨e, he⟩, fun hne => absurd rfl hne⟩
  | returned c e sl => simp [stepThread] at h

theorem World.cache_persists_step (sign : Signer) (w w' : World) (a : Action)
    (h : w.step sign a = some w') (k : String) :
    (∀ e, w.sys.s.cache.data k = some e → ∃ e', w'.sys.s.cache.data k = some e') ∧
    (w'.sys.s.cache.data k ≠ w.sys.s.cache.data k →
      ∃ i now sl g, a = Action.run i now ∧ w.threads[i]? = some (Pc.store sl k g)) := by
  cases a with
  | tick now =>
    simp only [World.step, Option.some.injEq] at h
    subst h
    exact ⟨fun e he => ⟨e, he⟩, fun hne => absurd rfl hne⟩
  | run i now =>
    obtain ⟨pc, σ', mem', pc', hi, hs, rfl⟩ := World.step_run_eq sign w w' i now h
    obtain ⟨h1, h2⟩ := stepThread_cache sign w.sys σ' w.slices mem' now pc pc' hs k
    refine ⟨h1, fun hne => ?_⟩
    obtain ⟨sl, g, rfl⟩ := h2 hne
    exact ⟨i, now, sl, g, rfl, hi⟩

theorem World.cache_persists_exec (sign : Signer) (sched : List Action) (w : World)
    (k : String) (e : expireEntry CertPtr) (he : w.sys.s.cache.data k = some e) :
    ∃ e', (w.exec sign sched).sys.s.cache.data k = some e' := by
  induction sched generalizing w e with
  | nil => exact ⟨e, he⟩
  | cons a rest ih =>
    simp only [World.exec]
    cases hs : w.step sign a with
    | none => simpa using ih w e he
    | some w' =>
      obtain ⟨e', he'⟩ := (World.cache_persists_step sign w w' a hs k).1 e he
      simpa using ih w' e' he'

theorem World.step_run_congr (sign : Signer) (sys : Sys) (slices : List (List String))
    (threads : List Pc) (swept₁ swept₂ : ExpiringCertMap CertPtr) (i : Nat) (now : Time) :
    (((({ sys := sys, swept := swept₁, slices := slices, threads := threads } : World).step sign
        (Action.run i now)).getD
        { sys := sys, swept := swept₁, slices := slices, threads := threads }).sys =
      ((({ sys := sys, swept := swept₂, slices := slices, threads := threads } : World).step sign
        (Action.run i now)).getD
        { sys := sys, swept := swept₂, slices := slices, threads := threads }).sys) ∧
    (((({ sys := sys, swept := swept₁, slices := slices, threads := threads } : World).step sign
        (Action.run i now)).getD
        { sys := sys, swept := swept₁, slices := slices, threads := threads }).slices =
      ((({ sys := sys, swept := swept₂, slices := slices, threads := threads } : World).step sign
        (Action.run i now)).getD
        { sys := sys, swept := swept₂, slices := slices, threads := threads }).slices) ∧
    (((({ sys := sys, swept := swept₁, slices := slices, threads := threads } : World).step sign
        (Action.run i now)).getD
        { sys := sys, swept := swept₁, slices := slices, threads := threads }).threads =
      ((({ sys := sys, swept := swept₂, slices := slices, threads := threads } : World).step sign
        (Action.run i now)).getD
        { sys := sys, swept := swept₂, slices := slices, threads := threads }).threads) := by
  simp only [World.step]
  cases h1 : threads[i]? with
  | none => simp
  | some pc =>
    cases h2 : stepThread sign sys slices now pc with
    | none => simp [h2]
    | some r => simp [h2]

/-- Two worlds that differ at most in the store of the sweeping goroutine
take the same steps, ticks apart. -/
theorem World.exec_withoutTicks (sign : Signer) (sched : List Action) :
    ∀ (w₁ w₂ : World), w₁.sys = w₂.sys → w₁.slices = w₂.slices → w₁.threads = w₂.threads →
      (w₁.exec sign sched).sys = (w₂.exec sign (withoutTicks sched)).sys ∧
      (w₁.exec sign sched).slices = (w₂.exec sign (withoutTicks sched)).slices ∧
      (w₁.exec sign sched).threads = (w₂.exec sign (withoutTicks sched)).threads := by
  induction sched with
  | nil => intro w₁ w₂ h1 h2 h3; exact ⟨h1, h2, h3⟩
  | cons a rest ih =>
    intro w₁ w₂ h1 h2 h3
    cases a with
    | tick now =>
      have hw : withoutTicks (Action.tick now :: rest) = withoutTicks rest := by
        simp [withoutTicks, Action.isTick]
      rw [hw]
      simp only [World.exec, World.step_tick, Option.getD_some]
      exact ih _ w₂ h1 h2 h3
    | run i now =>
      have hw : withoutTicks (Action.run i now :: rest) =
          Action.run i now :: withoutTicks rest := by
        simp [withoutTicks, Action.isTick]
      rw [hw]
      simp only [World.exec]
      obtain ⟨sys₁, swept₁, slices₁, threads₁⟩ := w₁
      obtain ⟨sys₂, swept₂, slices₂, threads₂⟩ := w₂
      simp only at h1 h2 h3
      subst h1 h2 h3
      obtain ⟨c1, c2, c3⟩ := World.step_run_congr sign sys₁ slices₁ threads₁ swept₁ swept₂ i now
      exact ih _ _ c1 c2 c3

/-- C13, amended. In every execution started by `newCachedSigner` and for
every tick time `T`: the sweep pass of that tick runs over the store that the
sweeping goroutine closes over, which holds no entry, so the pass deletes no
entry; and the tick leaves the signer, with the store handed to callers, as
it is, so every entry that `Load` would still return at `T` is kept. -/
theorem sweep_deletes_nothing (sign : Signer) (ttl : Duration)
    (slices : List (List String)) (calls : List (CA × Nat)) (s₁ : List Action) (T : Time) :
    (∀ k, ((World.start ttl slices calls).exec sign s₁).swept.data k = none) ∧
    (∀ k, sweepPass ((World.start ttl slices calls).exec sign s₁).swept.data T k =
      ((World.start ttl slices calls).exec sign s₁).swept.data k) ∧
    ((World.start ttl slices calls).exec sign (s₁ ++ [Action.tick T])).sys =
      ((World.start ttl slices calls).exec sign s₁).sys ∧
    (∀ k v, ((World.start ttl slices calls).exec sign s₁).sys.s.cache.Load T k = some v →
      ((World.start ttl slices calls).exec sign (s₁ ++ [Action.tick T])).sys.s.cache.Load T k =
        some v) := by
  have hempty := World.swept_empty_exec sign s₁ (World.start ttl slices calls) (fun _ => rfl)
  have hsys : ((World.start ttl slices calls).exec sign (s₁ ++ [Action.tick T])).sys =
      ((World.start ttl slices calls).exec sign s₁).sys := by
    rw [World.exec_append]
    rfl
  refine ⟨hempty, fun k => ?_, hsys, fun k v hv => ?_⟩
  · simp [sweepPass, hempty k]
  · rw [hsys]
    exact hv

set_option maxRecDepth 100000 in
/-- C13 amended, at sample inputs: a call stores its certificate under
`a.com` with the clock at 0 and TTL 2; the tick at time 1 leaves the entry,
which `Load` returns at time 1, where it is. -/
theorem sweep_deletes_nothing_witness :
    ((World.start 2 [["a.com"]] [(7, 0)]).exec freshSigner
        (finish 0 0 7)).sys.s.cache.Load 1 "a.com" = some (some 0) ∧
    ((World.start 2 [["a.com"]] [(7, 0)]).exec freshSigner
        (finish 0 0 7 ++ [Action.tick 1])).sys.s.cache.Load 1 "a.com" = some (some 0) :=
  ⟨by decide,
   (sweep_deletes_nothing freshSigner 2 [["a.com"]] [(7, 0)] (finish 0 0 7) 1).2.2.2
     "a.com" (some 0) (by decide)⟩

/-- C14, amended. `Load` does not depend on whether the sweep has run: in
every execution started by `newCachedSigner`, for every key `k`, tick time `T`
and read time `now`, `Load(k)` at time `now` on the store handed to callers
returns the same result before and after the sweep pass of a tick with tick
time `T`, and the same result as in the execution with all sweep ticks left
out, which reaches the same signer state, slices and calls. -/
theorem Load_independent_of_sweep (sign : Signer) (ttl : Duration)
    (slices : List (List String)) (calls : List (CA × Nat)) (sched : List Action)
    (k : String) (T now : Time) :
    ((World.start ttl slices calls).exec sign (sched ++ [Action.tick T])).sys.s.cache.Load
        now k =
      ((World.start ttl slices calls).exec sign sched).sys.s.cache.Load now k ∧
    ((World.start ttl slices calls).exec sign sched).sys.s.cache.Load now k =
      ((World.start ttl slices calls).exec sign (withoutTicks sched)).sys.s.cache.Load now k ∧
    ((World.start ttl slices calls).exec sign sched).sys =
      ((World.start ttl slices calls).exec sign (withoutTicks sched)).sys ∧
    ((World.start ttl slices calls).exec sign sched).slices =
      ((World.start ttl slices calls).exec sign (withoutTicks sched)).slices ∧
    ((World.start ttl slices calls).exec sign sched).threads =
      ((World.start ttl slices calls).exec sign (withoutTicks sched)).threads := by
  obtain ⟨h1, h2, h3⟩ := World.exec_withoutTicks sign sched (World.start ttl slices calls)
    (World.start ttl slices calls) rfl rfl rfl
  refine ⟨?_, by rw [h1], h1, h2, h3⟩
  rw [World.exec_append]
  rfl

set_option maxRecDepth 100000 in
/-- C14 amended, at sample inputs: a call stores its certificate under
`a.com` with the clock at 0 and TTL 2, with sweep ticks at times 0 and 1 in
between its steps; `Load` at time 2 returns the certificate, as it does in
the execution without the ticks. -/
theorem Load_independent_of_sweep_witness :
    ((World.start 2 [["a.com"]] [(7, 0)]).exec freshSigner
        ([Action.run 0 0, Action.run 0 0, Action.tick 0, Action.run 0 0, Action.run 0 0,
          Action.run 0 0, Action.run 0 0, Action.tick 1, Action.run 0 0] ++
         [Action.tick 1])).sys.s.cache.Load 2 "a.com" = some (some 0) ∧
    withoutTicks [Action.run 0 0, Action.run 0 0, Action.tick 0, Action.run 0 0,
        Action.run 0 0, Action.run 0 0, Action.run 0 0, Action.tick 1, Action.run 0 0] =
      finish 0 0 7 :=
  ⟨((Load_independent_of_sweep freshSigner 2 [["a.com"]] [(7, 0)]
      [Action.run 0 0, Action.run 0 0, Action.tick 0, Action.run 0 0, Action.run 0 0,
       Action.run 0 0, Action.run 0 0, Action.tick 1, Action.run 0 0] "a.com" 1 2).1).trans
      (by decide),
   by decide⟩

/-- C18. The background sweep never touches the store handed to callers:
`newTTLMap` hands its caller a copy of `m`, and in every execution from
`newCachedSigner(ttl)` the store that the sweeping goroutine closes over stays
empty; any number of sweep ticks leave the signer (its store and its slot) as
it was; an entry present in the signer's store stays present under every
continuation of the execution; and the entry of a key changes only in a step
in which a call executes `Store` on that key. -/
theorem sweep_never_touches_cache (sign : Signer) (ttl : Duration)
    (slices : List (List String)) (calls : List (CA × Nat)) (s₁ s₂ : List Action) :
    (∀ k, ((World.start ttl slices calls).exec sign s₁).swept.data k = none) ∧
    ((∀ a ∈ s₂, a.isTick = true) →
      ((World.start ttl slices calls).exec sign (s₁ ++ s₂)).sys =
        ((World.start ttl slices calls).exec sign s₁).sys) ∧
    (∀ k e, ((World.start ttl slices calls).exec sign s₁).sys.s.cache.data k = some e →
      ∃ e', ((World.start ttl slices calls).exec sign (s₁ ++ s₂)).sys.s.cache.data k =
        some e') ∧
    (∀ (a : Action) (k : String),
      ((World.start ttl slices calls).exec sign (s₁ ++ [a])).sys.s.cache.data k ≠
        ((World.start ttl slices calls).exec sign s₁).sys.s.cache.data k →
      ∃ i now sl g, a = Action.run i now ∧
        ((World.start ttl slices calls).exec sign s₁).threads[i]? =
          some (Pc.store sl k g)) := by
  refine ⟨World.swept_empty_exec sign s₁ _ (fun _ => rfl), fun hticks => ?_, fun k e he => ?_,
    fun a k hne => ?_⟩
  · rw [World.exec_append]
    exact (World.exec_ticks_sys sign s₂ _ hticks).1
  · rw [World.exec_append]
    exact World.cache_persists_exec sign s₂ _ k e he
  · rw [World.exec_append] at hne
    simp only [World.exec] at hne
    cases hs : ((World.start ttl slices calls).exec sign s₁).step sign a with
    | none => simp [hs] at hne
    | some w' =>
      simp only [hs, Option.getD_some] at hne
      exact (World.cache_persists_step sign _ w' a hs k).2 hne

set_option maxRecDepth 100000 in
/-- C18, at sample inputs: one call stores its certificate under `a.com` with
the clock at 0 and TTL 2; after sweep ticks at times 1, 2 and 100 the entry is
in the signer's store as written. -/
theorem sweep_never_touches_cache_witness :
    (((World.start 2 [["a.com"]] [(7, 0)]).exec freshSigner
        (finish 0 0 7 ++ [Action.tick 1, Action.tick 2, Action.tick 100])).sys =
      ((World.start 2 [["a.com"]] [(7, 0)]).exec freshSigner (finish 0 0 7)).sys) ∧
    ((World.start 2 [["a.com"]] [(7, 0)]).exec freshSigner
        (finish 0 0 7 ++ [Action.tick 1, Action.tick 2, Action.tick 100])).sys.s.cache.data
        "a.com" = some { ExpiresAt := 2, Value := some (some 0) } :=
  ⟨(sweep_never_touches_cache freshSigner 2 [["a.com"]] [(7, 0)]
      (finish 0 0 7) [Action.tick 1, Action.tick 2, Action.tick 100]).2.1 (by decide),
   by decide⟩

end goproxy
